import Mathlib

/-!
# M-Bus payload decoder (`src/decoder/decoder.js`)

A shallow embedding of `mbusDecoder` and of the two helpers it closes over,
`bin2dec` and `bcd2dec`, together with the static `definitions` table.

Conventions of the embedding:

* the input `bytes` is a `List Nat`; an element may exceed `0xFF`, which is what
  the explicit `byte > 0xFF` checks of the source guard against;
* JavaScript's `<<`, `|` and `&` work on 32-bit two's-complement integers; they
  are `jsShl`, `jsOr` and `jsAnd` below, over `Int` with explicit `% 2^32`;
* a thrown string is a constructor of `DecodeError`; `DecodeError.message`
  gives back the string of the source;
* `value * Math.pow(10, scalar)` is a double in the source; here it is idealised
  to the exact rational number `value * 10 ^ scalar`. The two agree when the
  effective scalar is 0 (`Math.pow(10, 0)` is 1 and the product is exact) and
  differ by rounding in general: for `[0x01, 0x02, 0x03]` the source returns
  `0.30000000000000004` where the idealised value is `3 / 10`. No theorem below
  is about the rounded value;
* the `while` loop runs on a fuel counter; `none` stands for "fuel exhausted",
  so that `some r` always is a result the loop really reached.
-/

namespace MBus

/-! ## 32-bit integer operators -/

/-- ECMAScript `ToUint32` on an integer. -/
def toUint32 (x : Int) : Nat := (x % 4294967296).toNat

/-- ECMAScript `ToInt32` on a natural number. -/
def toInt32 (n : Nat) : Int :=
  if n % 4294967296 < 2147483648 then ((n % 4294967296 : Nat) : Int)
  else ((n % 4294967296 : Nat) : Int) - 4294967296

/-- JavaScript `a << k`. -/
def jsShl (a : Int) (k : Nat) : Int := toInt32 (toUint32 a * 2 ^ (k % 32))

/-- JavaScript `a | b`. -/
def jsOr (a b : Int) : Int := toInt32 (toUint32 a ||| toUint32 b)

/-- JavaScript `a & b`. -/
def jsAnd (a b : Int) : Int := toInt32 (toUint32 a &&& toUint32 b)

/-- JavaScript `a >> k` (sign-propagating). -/
def jsShr (a : Int) (k : Nat) : Int := toInt32 (toUint32 a) / 2 ^ (k % 32)

/-! ## Data model -/

/-- One row of the `definitions` array. -/
structure Definition where
  name : String
  units : String
  base : Int
  size : Int
  scalar : Int
  deriving DecidableEq, Repr

/-- One element of the returned `fields` array. The `value` is the exact
product `value * 10 ^ scalar`, an idealisation of the double the source
computes. -/
structure Field where
  index : Nat
  vif : Int
  name : String
  units : String
  value : ℚ
  deriving DecidableEq, Repr

/-- The four strings the decoder throws. -/
inductive DecodeError where
  | unsupportedCoding (code : Int)
  | bufferOverflow
  | unsupportedVif (vif : Int)
  | byteOverflow
  deriving DecidableEq, Repr

deriving instance DecidableEq for Except

/-- The thrown string itself. -/
def DecodeError.message : DecodeError → String
  | .unsupportedCoding code => "Unsupported coding: " ++ toString code
  | .bufferOverflow => "Buffer overflow"
  | .unsupportedVif vif => "Unsupported VIF: " ++ toString vif
  | .byteOverflow => "Byte value overflow!"

/-- The `definitions` array, active rows only, in declaration order. -/
def definitions : List Definition := [
  -- No VIFE
  Definition.mk "energy" "Wh" 0x00 8 (-3),
  Definition.mk "energy" "J" 0x08 8 (0),
  Definition.mk "volume" "m3" 0x10 8 (-6),
  Definition.mk "mass" "kg" 0x18 8 (-3),
  Definition.mk "on_time" "s" 0x20 1 (0),
  Definition.mk "on_time" "min" 0x21 1 (0),
  Definition.mk "on_time" "h" 0x22 1 (0),
  Definition.mk "on_time" "days" 0x23 1 (0),
  Definition.mk "operating_time" "s" 0x24 1 (0),
  Definition.mk "operating_time" "min" 0x25 1 (0),
  Definition.mk "operating_time" "h" 0x26 1 (0),
  Definition.mk "operating_time" "days" 0x27 1 (0),
  Definition.mk "power" "W" 0x28 8 (-3),
  Definition.mk "power" "J/h" 0x30 8 (0),
  Definition.mk "volume_flow" "m3/h" 0x38 8 (-6),
  Definition.mk "volume_flow" "m3/min" 0x40 8 (-7),
  Definition.mk "volume_flow" "m3/s" 0x48 8 (-9),
  Definition.mk "mass_flow" "kg/h" 0x50 8 (-3),
  Definition.mk "flow_temperature" "C" 0x58 4 (-3),
  Definition.mk "return_temperature" "C" 0x5C 4 (-3),
  Definition.mk "temperature_difference" "K" 0x60 4 (-3),
  Definition.mk "external_temperature" "C" 0x64 4 (-3),
  Definition.mk "pressure" "bar" 0x68 4 (-3),
  Definition.mk "avg_duration" "s" 0x70 1 (0),
  Definition.mk "avg_duration" "min" 0x71 1 (0),
  Definition.mk "avg_duration" "h" 0x72 1 (0),
  Definition.mk "avg_duration" "days" 0x73 1 (0),
  Definition.mk "actual_duration" "s" 0x74 1 (0),
  Definition.mk "actual_duration" "min" 0x75 1 (0),
  Definition.mk "actual_duration" "h" 0x76 1 (0),
  Definition.mk "actual_duration" "days" 0x77 1 (0),
  Definition.mk "fabrication_number" "" 0x78 1 (0),
  Definition.mk "bus_address" "" 0x7A 1 (0),
  -- VIFE 0xFD
  Definition.mk "credit" "" 0xFD00 4 (-3),
  Definition.mk "debit" "" 0xFD04 4 (-3),
  Definition.mk "access_number" "" 0xFD08 1 (0),
  Definition.mk "manufacturer" "" 0xFD0A 1 (0),
  Definition.mk "model_version" "" 0xFD0C 1 (0),
  Definition.mk "hardware_version" "" 0xFD0D 1 (0),
  Definition.mk "firmware_version" "" 0xFD0E 1 (0),
  Definition.mk "customer" "" 0xFD11 1 (0),
  Definition.mk "error_flags" "" 0xFD17 1 (0),
  Definition.mk "error_mask" "" 0xFD18 1 (0),
  Definition.mk "digital_output" "" 0xFD1A 1 (0),
  Definition.mk "digital_input" "" 0xFD1B 1 (0),
  Definition.mk "baudrate" "bps" 0xFD1C 1 (0),
  Definition.mk "response_delay_time" "" 0xFD1D 1 (0),
  Definition.mk "retry" "" 0xFD1E 1 (0),
  Definition.mk "generic" "" 0xFD3C 1 (0),
  Definition.mk "volts" "V" 0xFD40 16 (-9),
  Definition.mk "amperes" "A" 0xFD50 16 (-12),
  Definition.mk "reset_counter" "" 0xFD60 16 (-12),
  Definition.mk "cumulation_counter" "" 0xFD61 16 (-12),
  -- VIFE 0xFB
  Definition.mk "energy" "Wh" 0xFB00 2 (5),
  Definition.mk "energy" "J" 0xFB08 2 (8),
  Definition.mk "volume" "m3" 0xFB10 2 (2),
  Definition.mk "mass" "kg" 0xFB18 2 (5),
  Definition.mk "volume" "ft3" 0xFB21 1 (-1),
  Definition.mk "volume" "gal" 0xFB22 2 (-1),
  Definition.mk "volume_flow" "gal/min" 0xFB24 1 (-3),
  Definition.mk "volume_flow" "gal/min" 0xFB25 1 (0),
  Definition.mk "volume_flow" "gal/h" 0xFB26 1 (0),
  Definition.mk "power" "W" 0xFB28 2 (5),
  Definition.mk "power" "J/h" 0xFB30 2 (8),
  Definition.mk "flow_temperature" "F" 0xFB58 4 (-3),
  Definition.mk "return_temperature" "F" 0xFB5C 4 (-3),
  Definition.mk "temperature_difference" "F" 0xFB60 4 (-3),
  Definition.mk "external_temperature" "F" 0xFB64 4 (-3),
  Definition.mk "temperature_limit" "F" 0xFB70 4 (-3),
  Definition.mk "temperature_limit" "C" 0xFB74 4 (-3),
  Definition.mk "max_power" "W" 0xFB78 8 (-3)
]

/-! ## The helpers `bin2dec` and `bcd2dec` -/

/-- Body of the `for` loop of `bin2dec`, for loop counter `i`. -/
def bin2decStep (stream : List Nat) (value : Int) (i : Nat) : Except DecodeError Int :=
  let byte := stream.getD (stream.length - i - 1) 0
  if byte > 0xFF then .error .byteOverflow
  else .ok (jsOr (jsShl value 8) (byte : Int))

/-- Source function `bin2dec`: `i` runs over `0 .. stream.length - 1`. -/
def bin2dec (stream : List Nat) : Except DecodeError Int :=
  (List.range stream.length).foldlM (bin2decStep stream) 0

/-- Body of the `for` loop of `bcd2dec`, for loop counter `i`. -/
def bcd2decStep (stream : List Nat) (value : Int) (i : Nat) : Except DecodeError Int :=
  let byte := stream.getD (stream.length - i - 1) 0
  if byte > 0xFF then .error .byteOverflow
  else .ok ((value * 100) + (jsShr (byte : Int) 4 * 10) + jsAnd (byte : Int) 0x0F)

/-- Source function `bcd2dec`: `i` runs over `0 .. stream.length - 1`. -/
def bcd2dec (stream : List Nat) : Except DecodeError Int :=
  (List.range stream.length).foldlM (bcd2decStep stream) 0

/-! ## The decoding loop -/

/-- The `do ... while ((vif & 0x80) == 0x80)` loop reading the VIF(E) chain.
The first argument is `bytes` from `index` on, so that it is empty exactly
when `index == bytes.length`; the result is the final `vif` and `index`. -/
def readVif : List Nat → Int → Nat → Except DecodeError (Int × Nat)
  | [], _, _ => .error .bufferOverflow
  | b :: rest, vif, index =>
    let vif1 := jsOr (jsShl vif 8) (b : Int)
    if jsAnd vif1 0x80 = 0x80 then readVif rest vif1 (index + 1)
    else .ok (vif1, index + 1)

/-- The "find definition" loop: the first row, in declaration order, with
`base <= vif && vif < base + size`. -/
def findDefinition (vif : Int) : Option Definition :=
  definitions.find? (fun d => decide (d.base ≤ vif) && decide (vif < d.base + d.size))

/-- JavaScript `bytes.slice(start, end)` for `start <= end`. -/
def jsSlice (bytes : List Nat) (start stop : Nat) : List Nat :=
  (bytes.drop start).take (stop - start)

/-- One iteration of the `while` loop, entered with `index < bytes.length`
and `count = fields.length`: the new field and the new `index`, or the
thrown error. -/
def decodeRecord (bytes : List Nat) (index count : Nat) :
    Except DecodeError (Field × Nat) :=
  -- Decode DIF
  let dif : Int := (bytes.getD index 0 : Nat)
  let index := index + 1
  let bcd : Bool := decide (jsAnd dif 0x08 = 0x08)
  let len : Int := jsAnd dif 0x07
  if len < 1 ∨ 4 < len then .error (.unsupportedCoding (jsAnd dif 0x0F))
  else
    -- Get VIF(E)
    match readVif (bytes.drop index) 0 index with
    | .error e => .error e
    | .ok (vif, index) =>
      -- Find definition
      match findDefinition vif with
      | none => .error (.unsupportedVif vif)
      | some d =>
        -- Check buffer overflow
        if index + len.toNat > bytes.length then .error .bufferOverflow
        else
          -- read value
          match (if bcd then bcd2dec (jsSlice bytes index (index + len.toNat))
                 else bin2dec (jsSlice bytes index (index + len.toNat))) with
          | .error e => .error e
          | .ok value =>
            let index := index + len.toNat
            -- scaled value
            let scalar : Int := d.scalar + vif - d.base
            let scaled : ℚ := (value : ℚ) * (10 : ℚ) ^ scalar
            .ok (⟨count + 1, vif, d.name, d.units, scaled⟩, index)

/-- The `while (index < bytes.length)` loop; `none` when the fuel runs out
before the loop exits. -/
def mbusLoop (bytes : List Nat) : Nat → Nat → List Field →
    Option (Except DecodeError (List Field))
  | 0, _, _ => none
  | fuel + 1, index, fields =>
    if index < bytes.length then
      match decodeRecord bytes index fields.length with
      | .error e => some (.error e)
      | .ok (f, index1) => mbusLoop bytes fuel index1 (fields ++ [f])
    else some (.ok fields)

/-- Source function `mbusDecoder`. Every iteration consumes at least the DIF
byte, so `bytes.length + 1` rounds of the loop test are enough. -/
def mbusDecoder (bytes : List Nat) : Option (Except DecodeError (List Field)) :=
  mbusLoop bytes (bytes.length + 1) 0 []

/-! ## Auxiliary definitions used in the statements and proofs -/

/-- What `bin2dec` does with one byte. -/
def binAcc (value : Int) (byte : Nat) : Except DecodeError Int :=
  if byte > 0xFF then .error .byteOverflow else .ok (jsOr (jsShl value 8) (byte : Int))

/-- What `bcd2dec` does with one byte. -/
def bcdAcc (value : Int) (byte : Nat) : Except DecodeError Int :=
  if byte > 0xFF then .error .byteOverflow
  else .ok ((value * 100) + (jsShr (byte : Int) 4 * 10) + jsAnd (byte : Int) 0x0F)

/-- The two decimal digits a byte holds, as `bcd2dec` reads them. -/
def bcdPair (b : Nat) : Nat := (b >>> 4) * 10 + (b &&& 0x0F)

/-- The integer a VIF(E) chain combines to, by the spec's words: bytes are
taken in order and accumulated by repeated `(acc << 8) | byte`. -/
def vifChain (acc : Int) (chain : List Nat) : Int :=
  chain.foldl (fun (v : Int) (b : Nat) => jsOr (jsShl v 8) (b : Int)) acc

/-- The spec's encoding for the round trip: the `len`-byte slice whose byte
`i` is `floor(v / 256^i) mod 256`, so that the last byte is the most
significant one. -/
def encodeBytes (v len : Nat) : List Nat :=
  (List.range len).map (fun i => v / 256 ^ i % 256)

/-- The range test of the lookup: `base <= vif && vif < base + size`. -/
def inRange (d : Definition) (vif : Int) : Prop := d.base ≤ vif ∧ vif < d.base + d.size

instance (d : Definition) (vif : Int) : Decidable (inRange d vif) := by
  unfold inRange
  infer_instance

/-- A field with its `index` raised by `k`, everything else unchanged. -/
def Field.shift (k : Nat) (f : Field) : Field := { f with index := f.index + k }

/-- The VIF codes whose rows are commented out in the `definitions` array of
the source (lines 55-57 and 73-86). -/
def commentedOutVifs : List Int :=
  [0x6C, 0x6D, 0x6E, 0xFD09, 0xFD0B, 0xFD0F, 0xFD10, 0xFD12, 0xFD13, 0xFD14, 0xFD15, 0xFD16]

/-- The positional value of a BCD slice with the first byte least
significant: the sum over `i` of `bcdPair s[i] * 100 ^ i`. -/
def bcdWeighted (s : List Nat) : Nat :=
  ((List.range s.length).map (fun i => bcdPair (s.getD i 0) * 100 ^ i)).sum

/-! # Theorems -/

/-! ## Facts on the 32-bit operators -/

theorem toUint32_natCast (n : Nat) : toUint32 (n : Int) = n % 4294967296 := by
  unfold toUint32
  omega

theorem toUint32_toInt32 (n : Nat) : toUint32 (toInt32 n) = n % 4294967296 := by
  unfold toUint32 toInt32
  split <;> omega

theorem toInt32_of_lt {n : Nat} (h : n < 2147483648) : toInt32 n = (n : Int) := by
  unfold toInt32
  have h1 : n % 4294967296 = n := Nat.mod_eq_of_lt (by omega)
  rw [h1, if_pos h]

theorem and_mod_left (x m : Nat) (hm : m < 4294967296) :
    (x % 4294967296) &&& m = x &&& m := by
  apply Nat.eq_of_testBit_eq
  intro i
  have h32 : (4294967296 : Nat) = 2 ^ 32 := by norm_num
  rw [h32] at hm ⊢
  rw [Nat.testBit_and, Nat.testBit_and, Nat.testBit_mod_two_pow]
  by_cases hi : i < 32
  · simp [hi]
  · have : m.testBit i = false :=
      Nat.testBit_lt_two_pow (lt_of_lt_of_le hm (Nat.pow_le_pow_right (by norm_num) (by omega)))
    simp [this]

/-- On a natural-number operand and a mask below `2^31`, `&` is the bitwise
"and" of the naturals. -/
theorem jsAnd_natCast (n m : Nat) (hm : m < 2147483648) :
    jsAnd (n : Int) (m : Int) = ((n &&& m : Nat) : Int) := by
  unfold jsAnd
  rw [toUint32_natCast, toUint32_natCast, Nat.mod_eq_of_lt (show m < 4294967296 by omega),
    and_mod_left n m (by omega)]
  exact toInt32_of_lt (lt_of_le_of_lt Nat.and_le_right hm)

theorem jsAnd_toInt32 (n m : Nat) (hm : m < 2147483648) :
    jsAnd (toInt32 n) (m : Int) = ((n &&& m : Nat) : Int) := by
  unfold jsAnd
  rw [toUint32_toInt32, toUint32_natCast, Nat.mod_eq_of_lt (show m < 4294967296 by omega),
    and_mod_left n m (by omega)]
  exact toInt32_of_lt (lt_of_le_of_lt Nat.and_le_right hm)

/-- Bit 7 of `(vif << 8) | b` is bit 7 of `b`. -/
theorem jsAnd_vif_step (vif : Int) (b : Nat) :
    jsAnd (jsOr (jsShl vif 8) (b : Int)) 0x80 = ((b &&& 0x80 : Nat) : Int) := by
  have h := jsAnd_toInt32 (toUint32 (jsShl vif 8) ||| toUint32 (b : Int)) 0x80 (by norm_num)
  have e : (toUint32 (jsShl vif 8) ||| toUint32 (b : Int)) &&& 0x80 = b &&& 0x80 := by
    unfold jsShl
    rw [toUint32_toInt32, toUint32_natCast]
    apply Nat.eq_of_testBit_eq
    intro i
    have h32 : (4294967296 : Nat) = 2 ^ 32 := by norm_num
    have h80 : (0x80 : Nat) = 2 ^ 7 := by norm_num
    have h8 : (8 % 32 : Nat) = 8 := by norm_num
    rw [h32, h80, h8, Nat.mul_comm]
    simp only [Nat.testBit_and, Nat.testBit_or, Nat.testBit_mod_two_pow, Nat.testBit_mul_pow_two,
      Nat.testBit_two_pow]
    by_cases hi : 7 = i
    · subst hi
      simp
    · simp [hi]
  unfold jsOr
  rw [show ((0x80 : Int)) = ((0x80 : Nat) : Int) by norm_num, h, e]

/-- Accumulating one byte onto a value below `2^23` does not wrap. -/
theorem jsOr_jsShl_small (v b : Nat) (hv : v < 8388608) (hb : b ≤ 0xFF) :
    jsOr (jsShl (v : Int) 8) (b : Int) = ((v * 256 + b : Nat) : Int) := by
  unfold jsOr jsShl
  rw [toUint32_toInt32, toUint32_natCast, toUint32_natCast]
  have h1 : v % 4294967296 = v := Nat.mod_eq_of_lt (by omega)
  have h2 : b % 4294967296 = b := Nat.mod_eq_of_lt (by omega)
  have h3 : (v * 2 ^ (8 % 32)) % 4294967296 = 2 ^ 8 * v := by
    norm_num
    omega
  rw [h1, h2, h3, ← Nat.mul_add_lt_is_or (by norm_num; omega) v]
  rw [toInt32_of_lt (by norm_num; omega)]
  norm_num
  ring

/-! ## The helpers as folds over the reversed slice -/

theorem range_map_getD_reverse (l : List Nat) :
    (List.range l.length).map (fun i => l.getD (l.length - i - 1) 0) = l.reverse := by
  apply List.ext_getElem
  · simp
  · intro i h1 h2
    simp only [List.length_map, List.length_range] at h1
    simp only [List.getElem_map, List.getElem_range, List.getElem_reverse]
    rw [List.getD_eq_getElem _ _ (by omega)]
    congr 1
    omega

theorem bin2dec_eq_foldlM (stream : List Nat) :
    bin2dec stream = stream.reverse.foldlM binAcc 0 := by
  rw [← range_map_getD_reverse stream, List.foldlM_map]
  rfl

theorem bcd2dec_eq_foldlM (stream : List Nat) :
    bcd2dec stream = stream.reverse.foldlM bcdAcc 0 := by
  rw [← range_map_getD_reverse stream, List.foldlM_map]
  rfl

theorem jsShr_natCast (b k : Nat) (hb : b < 2147483648) (hk : k < 32) :
    jsShr (b : Int) k = ((b >>> k : Nat) : Int) := by
  unfold jsShr
  rw [toUint32_natCast, Nat.mod_eq_of_lt (show b < 4294967296 by omega), toInt32_of_lt hb,
    Nat.mod_eq_of_lt hk, Nat.shiftRight_eq_div_pow]
  norm_cast

theorem bcdAcc_ok (value : Int) (b : Nat) (hb : b ≤ 0xFF) :
    bcdAcc value b = .ok (value * 100 + (bcdPair b : Nat)) := by
  unfold bcdAcc bcdPair
  rw [if_neg (by omega), jsShr_natCast b 4 (by omega) (by norm_num)]
  rw [show ((0x0F : Int)) = ((0x0F : Nat) : Int) by norm_num, jsAnd_natCast b 0x0F (by norm_num)]
  congr 1
  push_cast
  ring

theorem binAcc_ok_small (v b : Nat) (hv : v < 8388608) (hb : b ≤ 0xFF) :
    binAcc (v : Int) b = .ok ((v * 256 + b : Nat) : Int) := by
  unfold binAcc
  rw [if_neg (by omega), jsOr_jsShl_small v b hv hb]

/-! ## The VIF(E) chain -/

theorem readVif_cons (b : Nat) (rest : List Nat) (vif : Int) (index : Nat) :
    readVif (b :: rest) vif index =
      if b &&& 0x80 = 0x80 then readVif rest (jsOr (jsShl vif 8) (b : Int)) (index + 1)
      else .ok (jsOr (jsShl vif 8) (b : Int), index + 1) := by
  have h : (jsAnd (jsOr (jsShl vif 8) (b : Int)) 0x80 = 0x80) ↔ (b &&& 0x80 = 0x80) := by
    rw [jsAnd_vif_step]
    norm_cast
  simp only [readVif, h]

/-- A chain that ends leaves the cursor strictly further and inside the input. -/
theorem readVif_index {l : List Nat} {vif : Int} {index : Nat} {r : Int × Nat}
    (h : readVif l vif index = .ok r) : index < r.2 ∧ r.2 ≤ index + l.length := by
  induction l generalizing vif index with
  | nil => simp [readVif] at h
  | cons b rest ih =>
    rw [readVif_cons] at h
    split at h
    · have := ih h
      simp only [List.length_cons]
      omega
    · cases h
      simp only [List.length_cons]
      omega

/-- The chain reads the same bytes wherever the cursor stands. -/
theorem readVif_shift (l : List Nat) (vif : Int) (index k : Nat) :
    readVif l vif (k + index) =
      (match readVif l vif index with
       | .error e => .error e
       | .ok r => .ok (r.1, k + r.2)) := by
  induction l generalizing vif index with
  | nil => simp [readVif]
  | cons b rest ih =>
    rw [readVif_cons, readVif_cons]
    split
    · rw [← ih]
      rfl
    · rfl

/-- Bytes after a chain that ends do not change it. -/
theorem readVif_append {l : List Nat} {vif : Int} {index : Nat} {r : Int × Nat}
    (h : readVif l vif index = .ok r) (m : List Nat) : readVif (l ++ m) vif index = .ok r := by
  induction l generalizing vif index with
  | nil => simp [readVif] at h
  | cons b rest ih =>
    rw [readVif_cons] at h
    rw [List.cons_append, readVif_cons]
    split
    · rename_i hb
      rw [if_pos hb] at h
      exact ih h
    · rename_i hb
      rw [if_neg hb] at h
      exact h

/-- A chain of continuation bytes only runs into the end of the input. -/
theorem readVif_unterminated (l : List Nat) (vif : Int) (index : Nat)
    (h : ∀ b ∈ l, b &&& 0x80 = 0x80) : readVif l vif index = .error .bufferOverflow := by
  induction l generalizing vif index with
  | nil => rfl
  | cons b rest ih =>
    rw [readVif_cons, if_pos (h b (List.mem_cons_self _ _))]
    exact ih _ _ (fun c hc => h c (List.mem_cons_of_mem _ hc))

/-- A chain of continuation bytes closed by a byte without bit `0x80`. -/
theorem readVif_terminated (cont : List Nat) (last : Nat) (rest : List Nat) (vif : Int)
    (index : Nat) (hc : ∀ b ∈ cont, b &&& 0x80 = 0x80) (hl : last &&& 0x80 ≠ 0x80) :
    readVif (cont ++ last :: rest) vif index =
      .ok (vifChain vif (cont ++ [last]), index + cont.length + 1) := by
  unfold vifChain
  induction cont generalizing vif index with
  | nil =>
    simp only [List.nil_append, List.length_nil, Nat.add_zero, List.foldl_cons, List.foldl_nil]
    rw [readVif_cons, if_neg hl]
  | cons b tl ih =>
    rw [List.cons_append, readVif_cons, if_pos (hc b (List.mem_cons_self _ _)),
      ih _ _ (fun c hc1 => hc c (List.mem_cons_of_mem _ hc1))]
    simp only [List.cons_append, List.foldl_cons, List.length_cons]
    congr 2
    omega

/-! ## One record -/

/-- The body of the loop with the DIF tests written on natural numbers. -/
theorem decodeRecord_unfold (bytes : List Nat) (index count : Nat) :
    decodeRecord bytes index count =
      (if bytes.getD index 0 &&& 0x07 < 1 ∨ 4 < bytes.getD index 0 &&& 0x07 then
        .error (.unsupportedCoding ((bytes.getD index 0 &&& 0x0F : Nat) : Int))
      else
        match readVif (bytes.drop (index + 1)) 0 (index + 1) with
        | .error e => .error e
        | .ok (vif, i) =>
          match findDefinition vif with
          | none => .error (.unsupportedVif vif)
          | some d =>
            if i + (bytes.getD index 0 &&& 0x07) > bytes.length then .error .bufferOverflow
            else
              match (if bytes.getD index 0 &&& 0x08 = 0x08
                     then bcd2dec (jsSlice bytes i (i + (bytes.getD index 0 &&& 0x07)))
                     else bin2dec (jsSlice bytes i (i + (bytes.getD index 0 &&& 0x07)))) with
              | .error e => .error e
              | .ok value =>
                .ok (⟨count + 1, vif, d.name, d.units,
                      (value : ℚ) * (10 : ℚ) ^ (d.scalar + vif - d.base)⟩,
                     i + (bytes.getD index 0 &&& 0x07))) := by
  have h7 := jsAnd_natCast (bytes.getD index 0) 0x07 (by norm_num)
  have h8 := jsAnd_natCast (bytes.getD index 0) 0x08 (by norm_num)
  have hF := jsAnd_natCast (bytes.getD index 0) 0x0F (by norm_num)
  simp only [Nat.cast_ofNat] at h7 h8 hF
  unfold decodeRecord
  simp only [h7, h8, hF, Int.toNat_ofNat]
  have e1 : (((bytes.getD index 0 &&& 7 : Nat) : Int) < 1 ∨ 4 < ((bytes.getD index 0 &&& 7 : Nat) : Int))
      ↔ (bytes.getD index 0 &&& 7 < 1 ∨ 4 < bytes.getD index 0 &&& 7) := by
    constructor <;> intro h <;> omega
  have e2 : (((bytes.getD index 0 &&& 8 : Nat) : Int) = 8) ↔ (bytes.getD index 0 &&& 8 = 8) := by
    constructor <;> intro h <;> omega
  simp only [e1, e2, decide_eq_true_eq]

/-! ## The loop -/

theorem mbusLoop_succ (bytes : List Nat) (fuel index : Nat) (fields : List Field) :
    mbusLoop bytes (fuel + 1) index fields =
      if index < bytes.length then
        match decodeRecord bytes index fields.length with
        | .error e => some (.error e)
        | .ok (f, index1) => mbusLoop bytes fuel index1 (fields ++ [f])
      else some (.ok fields) := rfl

/-- A result reached with some fuel is reached with any larger fuel. -/
theorem mbusLoop_mono {bytes : List Nat} {fuel index : Nat} {fields : List Field}
    {r : Except DecodeError (List Field)} (h : mbusLoop bytes fuel index fields = some r)
    (k : Nat) : mbusLoop bytes (fuel + k) index fields = some r := by
  induction fuel generalizing index fields with
  | zero => simp [mbusLoop] at h
  | succ n ih =>
    rw [show n + 1 + k = (n + k) + 1 by omega, mbusLoop_succ]
    rw [mbusLoop_succ] at h
    split
    · rename_i hlt
      rw [if_pos hlt] at h
      split
      · rename_i e he
        rw [he] at h
        exact h
      · rename_i f index1 he
        rw [he] at h
        exact ih h
    · rename_i hlt
      rw [if_neg hlt] at h
      exact h

/-- A record that decodes moves the cursor forward and not past the end. -/
theorem decodeRecord_index {bytes : List Nat} {index count : Nat} {f : Field} {index1 : Nat}
    (h : decodeRecord bytes index count = .ok (f, index1)) :
    index + 3 ≤ index1 ∧ index1 ≤ bytes.length := by
  rw [decodeRecord_unfold] at h
  split at h
  · cases h
  · rename_i hlen
    split at h
    · cases h
    · rename_i vif i hv
      have hr := readVif_index hv
      simp only at hr
      split at h
      · cases h
      · split at h
        · cases h
        · rename_i hb
          split at h
          · cases h
          · cases h
            omega

/-- The loop always exits: `bytes.length - index + 1` rounds are enough to
reach a result. -/
theorem mbusLoop_terminates (bytes : List Nat) (fuel index : Nat) (fields : List Field)
    (h : bytes.length ≤ index + fuel) :
    ∃ r, mbusLoop bytes (fuel + 1) index fields = some r := by
  induction fuel generalizing index fields with
  | zero =>
    rw [mbusLoop_succ, if_neg (by omega)]
    exact ⟨_, rfl⟩
  | succ n ih =>
    rw [mbusLoop_succ]
    split
    · split
      · exact ⟨_, rfl⟩
      · rename_i f index1 he
        have := decodeRecord_index he
        exact ih index1 _ (by omega)
    · exact ⟨_, rfl⟩

/-! ## Values of short slices -/

theorem bin2dec_one (b0 : Nat) (h0 : b0 ≤ 0xFF) : bin2dec [b0] = .ok ((b0 : Nat) : Int) := by
  rw [bin2dec_eq_foldlM]
  simp only [List.reverse_cons, List.reverse_nil, List.nil_append, List.foldlM_cons,
    List.foldlM_nil]
  have e0 := binAcc_ok_small 0 b0 (by norm_num) h0
  simp only [Nat.cast_zero, Nat.zero_mul, Nat.zero_add] at e0
  rw [e0]
  rfl

theorem bin2dec_two (b0 b1 : Nat) (h0 : b0 ≤ 0xFF) (h1 : b1 ≤ 0xFF) :
    bin2dec [b0, b1] = .ok ((b0 + 256 * b1 : Nat) : Int) := by
  rw [bin2dec_eq_foldlM]
  simp only [List.reverse_cons, List.reverse_nil, List.nil_append, List.singleton_append,
    List.foldlM_cons, List.foldlM_nil]
  have e1 := binAcc_ok_small 0 b1 (by norm_num) h1
  simp only [Nat.cast_zero, Nat.zero_mul, Nat.zero_add] at e1
  rw [e1]
  simp only [bind, Except.bind]
  rw [binAcc_ok_small b1 b0 (by omega) h0]
  simp only [pure, Except.pure]
  congr 2
  omega

theorem bin2dec_three (b0 b1 b2 : Nat) (h0 : b0 ≤ 0xFF) (h1 : b1 ≤ 0xFF) (h2 : b2 ≤ 0xFF) :
    bin2dec [b0, b1, b2] = .ok ((b0 + 256 * b1 + 65536 * b2 : Nat) : Int) := by
  rw [bin2dec_eq_foldlM]
  simp only [List.reverse_cons, List.reverse_nil, List.nil_append, List.singleton_append,
    List.cons_append, List.foldlM_cons, List.foldlM_nil]
  have e2 := binAcc_ok_small 0 b2 (by norm_num) h2
  simp only [Nat.cast_zero, Nat.zero_mul, Nat.zero_add] at e2
  rw [e2]
  simp only [bind, Except.bind]
  rw [binAcc_ok_small b2 b1 (by omega) h1]
  simp only
  rw [binAcc_ok_small (b2 * 256 + b1) b0 (by omega) h0]
  simp only [pure, Except.pure]
  congr 2
  omega

theorem bin2dec_four (b0 b1 b2 b3 : Nat) (h0 : b0 ≤ 0xFF) (h1 : b1 ≤ 0xFF) (h2 : b2 ≤ 0xFF)
    (h3 : b3 < 0x80) :
    bin2dec [b0, b1, b2, b3] = .ok ((b0 + 256 * b1 + 65536 * b2 + 16777216 * b3 : Nat) : Int) := by
  rw [bin2dec_eq_foldlM]
  simp only [List.reverse_cons, List.reverse_nil, List.nil_append, List.singleton_append,
    List.cons_append, List.foldlM_cons, List.foldlM_nil]
  have e3 := binAcc_ok_small 0 b3 (by norm_num) (by omega)
  simp only [Nat.cast_zero, Nat.zero_mul, Nat.zero_add] at e3
  rw [e3]
  simp only [bind, Except.bind]
  rw [binAcc_ok_small b3 b2 (by omega) h2]
  simp only
  rw [binAcc_ok_small (b3 * 256 + b2) b1 (by omega) h1]
  simp only
  rw [binAcc_ok_small ((b3 * 256 + b2) * 256 + b1) b0 (by omega) h0]
  simp only [pure, Except.pure]
  congr 2
  omega

theorem bcd2dec_two (b0 b1 : Nat) (h0 : b0 ≤ 0xFF) (h1 : b1 ≤ 0xFF) :
    bcd2dec [b0, b1] = .ok ((bcdPair b0 + 100 * bcdPair b1 : Nat) : Int) := by
  rw [bcd2dec_eq_foldlM]
  simp only [List.reverse_cons, List.reverse_nil, List.nil_append, List.singleton_append,
    List.foldlM_cons, List.foldlM_nil]
  rw [bcdAcc_ok 0 b1 h1]
  simp only [bind, Except.bind]
  rw [bcdAcc_ok _ b0 h0]
  simp only [pure, Except.pure]
  congr 1
  push_cast
  ring

/-! ## Claims -/

/-- C1: for bytes `b0 b1 b2 b3` in `0..255` with `b3 < 0x80`, decoding
`[0x04, 0x03, b0, b1, b2, b3]` succeeds with exactly one field: index 1,
vif 3, name "energy", units "Wh" and value
`b0 + 256*b1 + 65536*b2 + 16777216*b3` (the effective scalar is 0). -/
theorem c1_single_energy_record (b0 b1 b2 b3 : Nat) (h0 : b0 ≤ 255) (h1 : b1 ≤ 255)
    (h2 : b2 ≤ 255) (h3 : b3 < 0x80) :
    mbusDecoder [0x04, 0x03, b0, b1, b2, b3] =
      some (.ok [⟨1, 3, "energy", "Wh",
        ((b0 + 256 * b1 + 65536 * b2 + 16777216 * b3 : Nat) : ℚ)⟩]) := by
  have hv : jsOr (jsShl 0 8) ((3 : Nat) : Int) = 3 := by
    have := jsOr_jsShl_small 0 3 (by norm_num) (by norm_num)
    simpa using this
  have hd : findDefinition 3 = some (Definition.mk "energy" "Wh" 0x00 8 (-3)) := by decide
  have hrec : decodeRecord [0x04, 0x03, b0, b1, b2, b3] 0 0 =
      .ok (⟨1, 3, "energy", "Wh",
        ((b0 + 256 * b1 + 65536 * b2 + 16777216 * b3 : Nat) : ℚ)⟩, 6) := by
    have e7 : (4 &&& 7 : Nat) = 4 := by decide
    have e8 : (4 &&& 8 : Nat) = 0 := by decide
    have e80 : (3 &&& 128 : Nat) = 0 := by decide
    rw [decodeRecord_unfold]
    simp only [List.getD_cons_zero, List.drop_succ_cons, List.drop_zero, List.length_cons,
      List.length_nil, readVif_cons, hv, hd, jsSlice]
    norm_num [e7, e8, e80, hd, bin2dec_four b0 b1 b2 b3 h0 h1 h2 h3]
  unfold mbusDecoder
  rw [mbusLoop_succ, if_pos (by simp), List.length_nil, hrec]
  simp only [List.length_cons, List.length_nil]
  rw [mbusLoop_succ, if_neg (by simp)]
  rfl

theorem c1_single_energy_record_witness :
    mbusDecoder [0x04, 0x03, 0x2A, 0x00, 0x00, 0x00] =
      some (.ok [⟨1, 3, "energy", "Wh", 42⟩]) := by
  have h := c1_single_energy_record 0x2A 0 0 0 (by decide) (by decide) (by decide) (by decide)
  rw [h]
  norm_num

/-- C3, counterexample: the slice `[0x34, 0x56]` decodes to `5634`; the value
the claim's formula gives, `3456`, is not what `bcd2dec` returns. -/
theorem c3_bcd_digit_order_counterexample :
    bcd2dec [0x34, 0x56] = .ok 5634 ∧
      bcd2dec [0x34, 0x56] ≠
        .ok (((0x56 >>> 4) * 10 + (0x56 &&& 0x0F) +
          100 * ((0x34 >>> 4) * 10 + (0x34 &&& 0x0F)) : Nat) : Int) := by
  decide

/-- C3, amended: for a 2-byte slice `[b0, b1]` of bytes in `0..255`,
`bcd2dec` returns `(b0>>4)*10 + (b0&0xF) + 100*((b1>>4)*10 + (b1&0xF))`: the
first byte of the slice is the least-significant digit pair. -/
theorem c3_bcd_digit_order (b0 b1 : Nat) (h0 : b0 ≤ 255) (h1 : b1 ≤ 255) :
    bcd2dec [b0, b1] =
      .ok (((b0 >>> 4) * 10 + (b0 &&& 0x0F) +
        100 * ((b1 >>> 4) * 10 + (b1 &&& 0x0F)) : Nat) : Int) :=
  bcd2dec_two b0 b1 h0 h1

theorem c3_bcd_digit_order_witness :
    bcd2dec [0x34, 0x56] = .ok 5634 ∧ bcd2dec [0x12] = .ok 12 :=
  ⟨(c3_bcd_digit_order 0x34 0x56 (by decide) (by decide)).trans (by decide), by decide⟩

/-- C4, counterexample: `v = 2^31` fits in 4 bytes, its encoding is
`[0, 0, 0, 0x80]`, and `bin2dec` returns `-2^31` for it. -/
theorem c4_bin_round_trip_counterexample :
    (2147483648 : Nat) < 256 ^ 4 ∧ encodeBytes 2147483648 4 = [0, 0, 0, 0x80] ∧
      bin2dec (encodeBytes 2147483648 4) = .ok (-2147483648) ∧
      bin2dec (encodeBytes 2147483648 4) ≠ .ok ((2147483648 : Nat) : Int) := by
  decide

/-- C4, amended: for `len` in `{1,2,3,4}` and `0 <= v < 256^len` with
`v < 2^31`, decoding the `len`-byte encoding of `v` gives back `v`. -/
theorem c4_bin_round_trip (len v : Nat) (hlen : 1 ≤ len ∧ len ≤ 4) (hv : v < 256 ^ len)
    (h31 : v < 2147483648) : bin2dec (encodeBytes v len) = .ok ((v : Nat) : Int) := by
  obtain ⟨hl1, hl4⟩ := hlen
  have hb : ∀ i, v / 256 ^ i % 256 ≤ 0xFF := fun i => by
    have := Nat.mod_lt (v / 256 ^ i) (show 0 < 256 by norm_num)
    omega
  interval_cases len
  · have e : encodeBytes v 1 = [v / 256 ^ 0 % 256] := rfl
    rw [e, bin2dec_one _ (hb 0)]
    congr 2
    norm_num at hv ⊢
    omega
  · have e : encodeBytes v 2 = [v / 256 ^ 0 % 256, v / 256 ^ 1 % 256] := rfl
    rw [e, bin2dec_two _ _ (hb 0) (hb 1)]
    congr 2
    norm_num at hv ⊢
    omega
  · have e : encodeBytes v 3 = [v / 256 ^ 0 % 256, v / 256 ^ 1 % 256, v / 256 ^ 2 % 256] := rfl
    rw [e, bin2dec_three _ _ _ (hb 0) (hb 1) (hb 2)]
    congr 2
    norm_num at hv ⊢
    omega
  · have e : encodeBytes v 4 =
        [v / 256 ^ 0 % 256, v / 256 ^ 1 % 256, v / 256 ^ 2 % 256, v / 256 ^ 3 % 256] := rfl
    have h3 : v / 256 ^ 3 % 256 < 0x80 := by
      norm_num
      omega
    rw [e, bin2dec_four _ _ _ _ (hb 0) (hb 1) (hb 2) h3]
    congr 2
    norm_num at hv ⊢
    omega

theorem c4_bin_round_trip_witness :
    bin2dec (encodeBytes 0x7FFFFFFF 4) = .ok 0x7FFFFFFF ∧ bin2dec (encodeBytes 0x1234 2) = .ok 0x1234 :=
  ⟨c4_bin_round_trip 4 0x7FFFFFFF (by decide) (by decide) (by decide),
   c4_bin_round_trip 2 0x1234 (by decide) (by decide) (by decide)⟩

/-! ## Which errors each stage can raise -/

theorem readVif_error {l : List Nat} {vif : Int} {index : Nat} {e : DecodeError}
    (h : readVif l vif index = .error e) : e = .bufferOverflow := by
  induction l generalizing vif index with
  | nil =>
    simp only [readVif] at h
    injection h with h
    exact h.symm
  | cons b rest ih =>
    rw [readVif_cons] at h
    split at h
    · exact ih h
    · cases h

theorem foldlM_binAcc_error {l : List Nat} {v : Int} {e : DecodeError}
    (h : l.foldlM binAcc v = .error e) : e = .byteOverflow := by
  induction l generalizing v with
  | nil => cases h
  | cons b rest ih =>
    rw [List.foldlM_cons] at h
    unfold binAcc at h
    split at h
    · injection h with h
      exact h.symm
    · exact ih h

theorem foldlM_bcdAcc_error {l : List Nat} {v : Int} {e : DecodeError}
    (h : l.foldlM bcdAcc v = .error e) : e = .byteOverflow := by
  induction l generalizing v with
  | nil => cases h
  | cons b rest ih =>
    rw [List.foldlM_cons] at h
    unfold bcdAcc at h
    split at h
    · injection h with h
      exact h.symm
    · exact ih h

theorem bin2dec_error {stream : List Nat} {e : DecodeError} (h : bin2dec stream = .error e) :
    e = .byteOverflow := by
  rw [bin2dec_eq_foldlM] at h
  exact foldlM_binAcc_error h

theorem bcd2dec_error {stream : List Nat} {e : DecodeError} (h : bcd2dec stream = .error e) :
    e = .byteOverflow := by
  rw [bcd2dec_eq_foldlM] at h
  exact foldlM_bcdAcc_error h

/-- Past the DIF test a record raises `BufferOverflow`, `UnsupportedVif` or
`ByteOverflow` only. -/
theorem decodeRecord_error_of_valid_dif {bytes : List Nat} {index count : Nat}
    {e : DecodeError}
    (hlen : ¬ (bytes.getD index 0 &&& 0x07 < 1 ∨ 4 < bytes.getD index 0 &&& 0x07))
    (h : decodeRecord bytes index count = .error e) :
    e = .bufferOverflow ∨ (∃ vif, e = .unsupportedVif vif) ∨ e = .byteOverflow := by
  rw [decodeRecord_unfold, if_neg hlen] at h
  split at h
  · rename_i e1 he
    injection h with h
    subst h
    exact Or.inl (readVif_error he)
  · split at h
    · injection h with h
      exact Or.inr (Or.inl ⟨_, h.symm⟩)
    · split at h
      · injection h with h
        exact Or.inl h.symm
      · split at h
        · rename_i e1 he
          injection h with h
          subst h
          right
          right
          split at he
          · exact bcd2dec_error he
          · exact bin2dec_error he
        · cases h

/-! ## Claims on the DIF -/

/-- The whole decode is decided by the first record and, when it decodes,
by the loop continuing after it. -/
theorem mbusDecoder_cons (dif : Nat) (rest : List Nat) :
    mbusDecoder (dif :: rest) =
      match decodeRecord (dif :: rest) 0 0 with
      | .error e => some (.error e)
      | .ok (f, index1) => mbusLoop (dif :: rest) (rest.length + 1) index1 [f] := by
  unfold mbusDecoder
  rw [mbusLoop_succ, if_pos (by simp)]
  rfl

/-- C5: when `dif & 0x07` is 0, 5, 6 or 7 the decoder raises
`UnsupportedCoding` carrying `dif & 0x0F`, whatever bytes follow; when it is
1, 2, 3 or 4 the first record does not raise `UnsupportedCoding`. -/
theorem c5_length_validity (dif : Nat) (rest : List Nat) :
    ((dif &&& 0x07 = 0 ∨ dif &&& 0x07 = 5 ∨ dif &&& 0x07 = 6 ∨ dif &&& 0x07 = 7) →
      mbusDecoder (dif :: rest) =
        some (.error (.unsupportedCoding ((dif &&& 0x0F : Nat) : Int)))) ∧
    ((dif &&& 0x07 = 1 ∨ dif &&& 0x07 = 2 ∨ dif &&& 0x07 = 3 ∨ dif &&& 0x07 = 4) →
      ∀ code, decodeRecord (dif :: rest) 0 0 ≠ .error (.unsupportedCoding code)) := by
  constructor
  · intro h
    rw [mbusDecoder_cons, decodeRecord_unfold, List.getD_cons_zero, if_pos (by omega)]
  · intro h code hc
    have hlen : ¬ ((dif :: rest).getD 0 0 &&& 0x07 < 1 ∨ 4 < (dif :: rest).getD 0 0 &&& 0x07) := by
      rw [List.getD_cons_zero]
      omega
    rcases decodeRecord_error_of_valid_dif hlen hc with h1 | ⟨vif, h1⟩ | h1 <;> cases h1

theorem c5_length_validity_witness :
    mbusDecoder [0x0D, 0x03, 0x2A] = some (.error (.unsupportedCoding 13)) ∧
      (∀ code, decodeRecord [0x04, 0x03, 0x2A] 0 0 ≠ .error (.unsupportedCoding code)) :=
  ⟨(c5_length_validity 0x0D [0x03, 0x2A]).1 (by decide),
   (c5_length_validity 0x04 [0x03, 0x2A]).2 (by decide)⟩

/-! ## The lookup -/

theorem findDefinition_eq_none {vif : Int} (h : ∀ d ∈ definitions, ¬ inRange d vif) :
    findDefinition vif = none := by
  unfold findDefinition
  rw [List.find?_eq_none]
  intro d hd
  have := h d hd
  unfold inRange at this
  simpa using this

/-- The row the lookup returns is the first one, in declaration order, whose
range holds `vif`. -/
theorem findDefinition_first {vif : Int} {d : Definition} (h : findDefinition vif = some d) :
    ∃ k : Nat, definitions[k]? = some d ∧ inRange d vif ∧
      ∀ (j : Nat) (d1 : Definition), j < k → definitions[j]? = some d1 → ¬ inRange d1 vif := by
  unfold findDefinition at h
  rw [List.find?_eq_some] at h
  obtain ⟨hp, as, bs, hsplit, hall⟩ := h
  refine ⟨as.length, ?_, ?_, ?_⟩
  · rw [hsplit, List.getElem?_append_right (Nat.le_refl _), Nat.sub_self]
    exact List.getElem?_cons_zero
  · unfold inRange
    simpa using hp
  · intro j d1 hj hd1
    rw [hsplit, List.getElem?_append_left hj] at hd1
    have hmem : d1 ∈ as := List.getElem?_mem hd1
    have := hall d1 hmem
    unfold inRange
    simp only [Bool.not_eq_true', Bool.and_eq_false_iff, decide_eq_false_iff_not] at this
    omega

/-! ## Claims on the VIF(E) chain -/

/-- C7: a DIF with low 3 bits in 1..4 followed by a VIF chain that ends
(continuation bytes, then a byte without bit `0x80`) whose combined value
lies in no table range makes the decoder raise `UnsupportedVif` carrying
that value, whatever bytes follow the chain, none included. -/
theorem c7_unmatched_vif (dif : Nat) (cont : List Nat) (last : Nat) (rest : List Nat)
    (hdif : 1 ≤ dif &&& 0x07 ∧ dif &&& 0x07 ≤ 4)
    (hcont : ∀ b ∈ cont, b &&& 0x80 = 0x80) (hlast : last &&& 0x80 ≠ 0x80)
    (hgap : ∀ d ∈ definitions, ¬ inRange d (vifChain 0 (cont ++ [last]))) :
    mbusDecoder (dif :: (cont ++ last :: rest)) =
      some (.error (.unsupportedVif (vifChain 0 (cont ++ [last])))) := by
  rw [mbusDecoder_cons, decodeRecord_unfold, List.getD_cons_zero, if_neg (by omega)]
  simp only [List.drop_succ_cons, List.drop_zero]
  rw [readVif_terminated cont last rest 0 (0 + 1) hcont hlast]
  simp only [findDefinition_eq_none hgap]

theorem c7_unmatched_vif_witness :
    mbusDecoder [0x01, 0x7B, 0x00] = some (.error (.unsupportedVif 123)) ∧
      mbusDecoder [0x04, 0x7B] = some (.error (.unsupportedVif 123)) ∧
      (DecodeError.unsupportedVif 123).message = "Unsupported VIF: 123" :=
  ⟨c7_unmatched_vif 0x01 [] 0x7B [0x00] (by decide) (by decide) (by decide) (by decide),
   c7_unmatched_vif 0x04 [] 0x7B [] (by decide) (by decide) (by decide) (by decide),
   by decide⟩

/-- C10: one DIF byte with low 3 bits in 1..4 followed by bytes that all
have bit `0x80` set, however many (none, or so many that the 32-bit
accumulator wraps), makes the decoder raise `BufferOverflow`. -/
theorem c10_unterminated_chain (dif : Nat) (chain : List Nat)
    (hdif : 1 ≤ dif &&& 0x07 ∧ dif &&& 0x07 ≤ 4)
    (hchain : ∀ b ∈ chain, b &&& 0x80 = 0x80) :
    mbusDecoder (dif :: chain) = some (.error .bufferOverflow) := by
  rw [mbusDecoder_cons, decodeRecord_unfold, List.getD_cons_zero, if_neg (by omega)]
  simp only [List.drop_succ_cons, List.drop_zero]
  rw [readVif_unterminated chain 0 (0 + 1) hchain]

theorem c10_unterminated_chain_witness :
    mbusDecoder [0x01] = some (.error .bufferOverflow) ∧
      mbusDecoder [0x04, 0xFF, 0x80, 0xFD, 0x81, 0xFF, 0xFF] = some (.error .bufferOverflow) ∧
      DecodeError.bufferOverflow.message = "Buffer overflow" :=
  ⟨c10_unterminated_chain 0x01 [] (by decide) (by decide),
   c10_unterminated_chain 0x04 [0xFF, 0x80, 0xFD, 0x81, 0xFF, 0xFF] (by decide) (by decide),
   by decide⟩

/-! ## What a decoded record holds -/

/-- A record that decodes: its DIF is valid, its chain ends, the lookup finds
a row, the value bytes are inside the input and decode, and the field is built
from these. -/
theorem decodeRecord_ok {bytes : List Nat} {index count : Nat} {f : Field} {index1 : Nat}
    (h : decodeRecord bytes index count = .ok (f, index1)) :
    ∃ (vif : Int) (i : Nat) (d : Definition) (raw : Int),
      (1 ≤ bytes.getD index 0 &&& 0x07 ∧ bytes.getD index 0 &&& 0x07 ≤ 4) ∧
      readVif (bytes.drop (index + 1)) 0 (index + 1) = .ok (vif, i) ∧
      findDefinition vif = some d ∧
      i + (bytes.getD index 0 &&& 0x07) ≤ bytes.length ∧
      (if bytes.getD index 0 &&& 0x08 = 0x08
        then bcd2dec (jsSlice bytes i (i + (bytes.getD index 0 &&& 0x07)))
        else bin2dec (jsSlice bytes i (i + (bytes.getD index 0 &&& 0x07)))) = .ok raw ∧
      f = ⟨count + 1, vif, d.name, d.units, (raw : ℚ) * (10 : ℚ) ^ (d.scalar + vif - d.base)⟩ ∧
      index1 = i + (bytes.getD index 0 &&& 0x07) := by
  rw [decodeRecord_unfold] at h
  split at h
  · cases h
  · rename_i hlen
    split at h
    · cases h
    · rename_i vif i hv
      split at h
      · cases h
      · rename_i d hd
        split at h
        · cases h
        · rename_i hb
          split at h
          · cases h
          · rename_i raw hraw
            injection h with h
            injection h with h1 h2
            exact ⟨vif, i, d, raw, by omega, hv, hd, by omega, hraw, h1.symm, h2.symm⟩

/-- Every field the loop returns was either there at the start or is the
result of decoding a record at some cursor position. -/
theorem mbusLoop_fields {bytes : List Nat} {fuel index : Nat} {fields out : List Field}
    (h : mbusLoop bytes fuel index fields = some (.ok out)) :
    ∃ new, out = fields ++ new ∧
      ∀ f ∈ new, ∃ p count i1, p < bytes.length ∧ decodeRecord bytes p count = .ok (f, i1) := by
  induction fuel generalizing index fields with
  | zero => simp [mbusLoop] at h
  | succ n ih =>
    rw [mbusLoop_succ] at h
    split at h
    · rename_i hlt
      split at h
      · cases h
      · rename_i f index1 he
        obtain ⟨new, hout, hnew⟩ := ih h
        refine ⟨f :: new, by rw [hout, List.append_assoc]; rfl, ?_⟩
        intro g hg
        rcases List.mem_cons.mp hg with hg | hg
        · subst hg
          exact ⟨index, fields.length, index1, hlt, he⟩
        · exact hnew g hg
    · injection h with h
      injection h with h
      exact ⟨[], by simp [h], by simp⟩

theorem mbusDecoder_fields {bytes : List Nat} {fs : List Field}
    (h : mbusDecoder bytes = some (.ok fs)) {f : Field} (hf : f ∈ fs) :
    ∃ p count i1, p < bytes.length ∧ decodeRecord bytes p count = .ok (f, i1) := by
  obtain ⟨new, hout, hnew⟩ := mbusLoop_fields h
  rw [List.nil_append] at hout
  subst hout
  exact hnew f hf

/-! ## Claims on the lookup -/

/-- C6: every field of a successful decode has a table row whose range
holds its `vif`, and its `name` and `units` are those of the first such row
in declaration order. -/
theorem c6_first_match (bytes : List Nat) (fs : List Field)
    (h : mbusDecoder bytes = some (.ok fs)) (f : Field) (hf : f ∈ fs) :
    ∃ (k : Nat) (d : Definition), definitions[k]? = some d ∧ inRange d f.vif ∧
      (∀ (j : Nat) (d1 : Definition), j < k → definitions[j]? = some d1 → ¬ inRange d1 f.vif) ∧
      f.name = d.name ∧ f.units = d.units := by
  obtain ⟨p, count, i1, _, hrec⟩ := mbusDecoder_fields h hf
  obtain ⟨vif, i, d, raw, _, _, hd, _, _, hfd, _⟩ := decodeRecord_ok hrec
  obtain ⟨k, hk, hin, hfirst⟩ := findDefinition_first hd
  subst hfd
  exact ⟨k, d, hk, hin, hfirst, rfl, rfl⟩

theorem c6_first_match_witness :
    mbusDecoder [0x01, 0xFD, 0x61, 0x05] =
        some (.ok [⟨1, 0xFD61, "reset_counter", "", 5 / 100000000000⟩]) ∧
      inRange (Definition.mk "reset_counter" "" 0xFD60 16 (-12)) 0xFD61 ∧
      inRange (Definition.mk "cumulation_counter" "" 0xFD61 16 (-12)) 0xFD61 ∧
      ∃ (k : Nat) (d : Definition), definitions[k]? = some d ∧ inRange d 0xFD61 ∧
        (∀ (j : Nat) (d1 : Definition), j < k → definitions[j]? = some d1 →
          ¬ inRange d1 0xFD61) ∧
        "reset_counter" = d.name ∧ "" = d.units :=
  ⟨by decide!, by decide, by decide,
   c6_first_match [0x01, 0xFD, 0x61, 0x05]
     [⟨1, 0xFD61, "reset_counter", "", 5 / 100000000000⟩] (by decide!)
     ⟨1, 0xFD61, "reset_counter", "", 5 / 100000000000⟩ (List.mem_singleton_self _)⟩

/-- C8, the overlap in the table: rows 51 and 52 (0-based), "reset_counter"
at base `0xFD60` and "cumulation_counter" at base `0xFD61`, both have size 16,
so both ranges hold `0xFD61`; a record with that VIF is emitted as
"reset_counter". With row 52 taken out, the ranges of the remaining rows are
pairwise disjoint. -/
theorem c8_ranges_overlap :
    definitions[51]? = some (Definition.mk "reset_counter" "" 0xFD60 16 (-12)) ∧
      definitions[52]? = some (Definition.mk "cumulation_counter" "" 0xFD61 16 (-12)) ∧
      inRange (Definition.mk "reset_counter" "" 0xFD60 16 (-12)) 0xFD61 ∧
      inRange (Definition.mk "cumulation_counter" "" 0xFD61 16 (-12)) 0xFD61 ∧
      mbusDecoder [0x01, 0xFD, 0x61, 0x05] =
        some (.ok [⟨1, 0xFD61, "reset_counter", "", 5 / 100000000000⟩]) ∧
      (definitions.eraseIdx 52).Pairwise
        (fun d1 d2 => d1.base + d1.size ≤ d2.base ∨ d2.base + d2.size ≤ d1.base) :=
  ⟨by decide, by decide, by decide, by decide, by decide!, by decide⟩

/-! ## Concatenated inputs -/

/-- A record that decodes inside `a` decodes the same way when bytes follow `a`. -/
theorem decodeRecord_append {a : List Nat} {index count : Nat} {f : Field} {index1 : Nat}
    (h : decodeRecord a index count = .ok (f, index1)) (b : List Nat) :
    decodeRecord (a ++ b) index count = .ok (f, index1) := by
  obtain ⟨vif, i, d, raw, hlen, hv, hd, hle, hraw, hf, hi1⟩ := decodeRecord_ok h
  have hidx : index < a.length := by
    by_contra hge
    rw [List.getD_eq_default _ _ (by omega)] at hlen
    simp at hlen
  have hr := readVif_index hv
  simp only [List.length_drop] at hr
  have hget : (a ++ b).getD index 0 = a.getD index 0 := List.getD_append a b 0 index hidx
  have hdrop : (a ++ b).drop (index + 1) = a.drop (index + 1) ++ b :=
    List.drop_append_of_le_length (by omega)
  have hslice : jsSlice (a ++ b) i (i + (a.getD index 0 &&& 0x07)) =
      jsSlice a i (i + (a.getD index 0 &&& 0x07)) := by
    unfold jsSlice
    rw [List.drop_append_of_le_length (by omega), List.take_append_of_le_length]
    rw [List.length_drop]
    omega
  rw [decodeRecord_unfold, hget, if_neg (by omega), hdrop, readVif_append hv b]
  simp only [hd, hslice, List.length_append]
  rw [if_neg (by omega), hraw, hf, hi1]

/-- A record of `b` decodes the same way behind `a`, with the cursor moved
by `a.length` and the field count by `k`. -/
theorem decodeRecord_shift (a b : List Nat) (index count k : Nat) :
    decodeRecord (a ++ b) (a.length + index) (count + k) =
      match decodeRecord b index count with
      | .error e => .error e
      | .ok (f, index1) => .ok (f.shift k, a.length + index1) := by
  have hget : (a ++ b).getD (a.length + index) 0 = b.getD index 0 := by
    rw [List.getD_append_right a b 0 (a.length + index) (by omega), Nat.add_sub_cancel_left]
  have hdrop : (a ++ b).drop (a.length + index + 1) = b.drop (index + 1) := by
    rw [Nat.add_assoc, List.drop_append]
  have hslice : ∀ i n, jsSlice (a ++ b) (a.length + i) (a.length + i + n) = jsSlice b i (i + n) := by
    intro i n
    unfold jsSlice
    rw [List.drop_append, Nat.add_sub_cancel_left, Nat.add_sub_cancel_left]
  rw [decodeRecord_unfold, decodeRecord_unfold, hget, hdrop]
  split
  · rfl
  · rw [Nat.add_assoc, readVif_shift]
    cases hv : readVif (b.drop (index + 1)) 0 (index + 1) with
    | error e => rfl
    | ok r =>
      obtain ⟨vif, i⟩ := r
      simp only
      cases hd : findDefinition vif with
      | none => rfl
      | some d =>
        simp only [List.length_append, hslice]
        by_cases hb : i + (b.getD index 0 &&& 0x07) > b.length
        · rw [if_pos hb, if_pos (by omega)]
        · rw [if_neg hb, if_neg (by omega)]
          generalize (if b.getD index 0 &&& 0x08 = 0x08
            then bcd2dec (jsSlice b i (i + (b.getD index 0 &&& 0x07)))
            else bin2dec (jsSlice b i (i + (b.getD index 0 &&& 0x07)))) = res
          cases res with
          | error e => rfl
          | ok value =>
            simp only [Field.shift]
            have e1 : count + k + 1 = count + 1 + k := by omega
            rw [e1, Nat.add_assoc a.length]

/-- Decoding `a` to its end, then continuing into `b`. -/
theorem mbusLoop_append_left {a : List Nat} {fuel index : Nat} {fields out : List Field}
    (hidx : index ≤ a.length)
    (h : mbusLoop a fuel index fields = some (.ok out)) (b : List Nat) (fuel2 : Nat)
    {r : Except DecodeError (List Field)}
    (h2 : mbusLoop (a ++ b) fuel2 a.length out = some r) :
    mbusLoop (a ++ b) (fuel + fuel2) index fields = some r := by
  induction fuel generalizing index fields with
  | zero => simp [mbusLoop] at h
  | succ n ih =>
    rw [mbusLoop_succ] at h
    by_cases hlt : index < a.length
    · rw [if_pos hlt] at h
      rw [show n + 1 + fuel2 = (n + fuel2) + 1 by omega, mbusLoop_succ,
        if_pos (by rw [List.length_append]; omega)]
      cases he : decodeRecord a index fields.length with
      | error e =>
        rw [he] at h
        cases h
      | ok p =>
        obtain ⟨f, index1⟩ := p
        rw [he] at h
        rw [decodeRecord_append he b]
        exact ih (decodeRecord_index he).2 h
    · rw [if_neg hlt] at h
      injection h with h
      injection h with h
      have hi : index = a.length := by omega
      subst hi
      subst h
      rw [Nat.add_comm]
      exact mbusLoop_mono h2 _

/-- Decoding `b` behind `a`: the same fields, with their indices moved. -/
theorem mbusLoop_append_right (a : List Nat) {b : List Nat} {fuel index : Nat}
    {fields out : List Field} (h : mbusLoop b fuel index fields = some (.ok out))
    (pre : List Field) :
    mbusLoop (a ++ b) fuel (a.length + index) (pre ++ fields.map (Field.shift pre.length)) =
      some (.ok (pre ++ out.map (Field.shift pre.length))) := by
  induction fuel generalizing index fields with
  | zero => simp [mbusLoop] at h
  | succ n ih =>
    rw [mbusLoop_succ] at h
    rw [mbusLoop_succ]
    by_cases hlt : index < b.length
    · rw [if_pos hlt] at h
      rw [if_pos (by rw [List.length_append]; omega)]
      have hcount : (pre ++ fields.map (Field.shift pre.length)).length =
          fields.length + pre.length := by
        rw [List.length_append, List.length_map, Nat.add_comm]
      rw [hcount, decodeRecord_shift]
      cases he : decodeRecord b index fields.length with
      | error e =>
        rw [he] at h
        cases h
      | ok p =>
        obtain ⟨f, index1⟩ := p
        rw [he] at h
        simp only
        have := ih h
        rw [List.map_append, List.map_singleton, ← List.append_assoc] at this
        exact this
    · rw [if_neg hlt] at h
      injection h with h
      injection h with h
      subst h
      rw [if_neg (by rw [List.length_append]; omega)]

/-- C2: if `a` decodes to `fa` and `b` decodes to `fb`, then `a ++ b`
decodes to `fa` followed by the fields of `fb` with `index` raised by
`fa.length` and `vif`, `name`, `units`, `value` unchanged. -/
theorem c2_concatenation (a b : List Nat) (fa fb : List Field)
    (ha : mbusDecoder a = some (.ok fa)) (hb : mbusDecoder b = some (.ok fb)) :
    mbusDecoder (a ++ b) = some (.ok (fa ++ fb.map (Field.shift fa.length))) := by
  unfold mbusDecoder at ha hb ⊢
  have hright := mbusLoop_append_right a hb fa
  simp only [List.map_nil, List.append_nil, Nat.add_zero] at hright
  have hleft := mbusLoop_append_left (Nat.zero_le _) ha b (b.length + 1) hright
  obtain ⟨r, hr⟩ := mbusLoop_terminates (a ++ b) (a ++ b).length 0 [] (by omega)
  have hr1 := mbusLoop_mono hr 1
  rw [List.length_append, show a.length + b.length + 1 + 1 = a.length + 1 + (b.length + 1) by omega,
    hleft] at hr1
  rw [hr, hr1]

theorem c2_concatenation_witness :
    mbusDecoder ([0x04, 0x03, 0x2A, 0x00, 0x00, 0x00] ++ [0x0A, 0x03, 0x34, 0x56]) =
      some (.ok ([⟨1, 3, "energy", "Wh", 42⟩] ++
        [(⟨1, 3, "energy", "Wh", 5634⟩ : Field)].map
          (Field.shift [(⟨1, 3, "energy", "Wh", 42⟩ : Field)].length))) ∧
    [(⟨1, 3, "energy", "Wh", 5634⟩ : Field)].map
        (Field.shift [(⟨1, 3, "energy", "Wh", 42⟩ : Field)].length) =
      [⟨2, 3, "energy", "Wh", 5634⟩] :=
  ⟨c2_concatenation [0x04, 0x03, 0x2A, 0x00, 0x00, 0x00] [0x0A, 0x03, 0x34, 0x56]
     [⟨1, 3, "energy", "Wh", 42⟩] [⟨1, 3, "energy", "Wh", 5634⟩] (by decide!) (by decide!),
   by decide!⟩

/-! ## The first record, past a chain that ends -/

theorem findDefinition_isSome {vif : Int} (h : ∃ d ∈ definitions, inRange d vif) :
    ∃ d, findDefinition vif = some d := by
  obtain ⟨d, hd, hin⟩ := h
  cases hf : findDefinition vif with
  | some d1 => exact ⟨d1, rfl⟩
  | none =>
    unfold findDefinition at hf
    rw [List.find?_eq_none] at hf
    have := hf d hd
    unfold inRange at hin
    simp only [Bool.and_eq_true, decide_eq_true_eq, not_and, not_lt] at this
    omega

/-- The first record of `dif :: (cont ++ last :: rest)`, once the DIF is valid
and the chain `cont ++ [last]` ends: what is left is the lookup, the bounds
check and the value. -/
theorem decodeRecord_chain (dif : Nat) (cont : List Nat) (last : Nat) (rest : List Nat)
    (count : Nat) (hdif : 1 ≤ dif &&& 0x07 ∧ dif &&& 0x07 ≤ 4)
    (hcont : ∀ b ∈ cont, b &&& 0x80 = 0x80) (hlast : last &&& 0x80 ≠ 0x80) :
    decodeRecord (dif :: (cont ++ last :: rest)) 0 count =
      match findDefinition (vifChain 0 (cont ++ [last])) with
      | none => .error (.unsupportedVif (vifChain 0 (cont ++ [last])))
      | some d =>
        if rest.length < dif &&& 0x07 then .error .bufferOverflow
        else
          match (if dif &&& 0x08 = 0x08 then bcd2dec (rest.take (dif &&& 0x07))
                 else bin2dec (rest.take (dif &&& 0x07))) with
          | .error e => .error e
          | .ok value =>
            .ok (⟨count + 1, vifChain 0 (cont ++ [last]), d.name, d.units,
                  (value : ℚ) * (10 : ℚ) ^ (d.scalar + vifChain 0 (cont ++ [last]) - d.base)⟩,
                 cont.length + 2 + (dif &&& 0x07)) := by
  have hslice : jsSlice (dif :: (cont ++ last :: rest)) (0 + 1 + cont.length + 1)
      (0 + 1 + cont.length + 1 + (dif &&& 0x07)) = rest.take (dif &&& 0x07) := by
    unfold jsSlice
    rw [Nat.add_sub_cancel_left, show 0 + 1 + cont.length + 1 = (cont.length + 1) + 1 by omega,
      List.drop_succ_cons, show cont ++ last :: rest = (cont ++ [last]) ++ rest by simp,
      show cont.length + 1 = (cont ++ [last]).length by simp, List.drop_left]
  rw [decodeRecord_unfold, List.getD_cons_zero, if_neg (by omega)]
  simp only [List.drop_succ_cons, List.drop_zero]
  rw [readVif_terminated cont last rest 0 (0 + 1) hcont hlast]
  simp only [hslice]
  cases findDefinition (vifChain 0 (cont ++ [last])) with
  | none => rfl
  | some d =>
    simp only [List.length_cons, List.length_append]
    by_cases hb : rest.length < dif &&& 0x07
    · rw [if_pos hb, if_pos (by omega)]
    · rw [if_neg hb, if_neg (by omega)]
      have e : 0 + 1 + cont.length + 1 + (dif &&& 0x07) = cont.length + 2 + (dif &&& 0x07) := by
        omega
      rw [e]

/-! ## Claims on the bounds check and on unsupported codes -/

/-- C11: when the first record has a DIF with `len = dif & 0x07` in 1..4 and
a VIF chain that ends with a value some table row matches, the decoder raises
`BufferOverflow` if fewer than `len` bytes follow the chain, and that record
does not raise `BufferOverflow` if at least `len` bytes follow. -/
theorem c11_value_bounds (dif : Nat) (cont : List Nat) (last : Nat) (rest : List Nat)
    (hdif : 1 ≤ dif &&& 0x07 ∧ dif &&& 0x07 ≤ 4)
    (hcont : ∀ b ∈ cont, b &&& 0x80 = 0x80) (hlast : last &&& 0x80 ≠ 0x80)
    (hmatch : ∃ d ∈ definitions, inRange d (vifChain 0 (cont ++ [last]))) :
    (rest.length < dif &&& 0x07 →
      mbusDecoder (dif :: (cont ++ last :: rest)) = some (.error .bufferOverflow)) ∧
    (dif &&& 0x07 ≤ rest.length →
      decodeRecord (dif :: (cont ++ last :: rest)) 0 0 ≠ .error .bufferOverflow) := by
  obtain ⟨d, hd⟩ := findDefinition_isSome hmatch
  constructor
  · intro hshort
    rw [mbusDecoder_cons, decodeRecord_chain dif cont last rest 0 hdif hcont hlast]
    simp only [hd]
    rw [if_pos hshort]
  · intro hlong
    rw [decodeRecord_chain dif cont last rest 0 hdif hcont hlast]
    simp only [hd]
    rw [if_neg (by omega)]
    split
    · rename_i e he
      intro hc
      injection hc with hc
      subst hc
      split at he
      · cases bcd2dec_error he
      · cases bin2dec_error he
    · intro hc
      cases hc

theorem c11_value_bounds_witness :
    mbusDecoder [0x04, 0x03, 0x2A, 0x00, 0x00] = some (.error .bufferOverflow) ∧
      decodeRecord [0x04, 0x03, 0x2A, 0x00, 0x00, 0x00] 0 0 ≠ .error .bufferOverflow :=
  ⟨(c11_value_bounds 0x04 [] 0x03 [0x2A, 0x00, 0x00] (by decide) (by decide) (by decide)
      (by decide)).1 (by decide),
   (c11_value_bounds 0x04 [] 0x03 [0x2A, 0x00, 0x00, 0x00] (by decide) (by decide) (by decide)
      (by decide)).2 (by decide)⟩

/-- C13: each VIF code whose row is commented out in the source lies in no
range of the table, so a record with a valid DIF and a VIF chain that combines
to that code makes the decoder raise `UnsupportedVif` carrying the code. -/
theorem c13_commented_out_vifs (vif : Int) (hvif : vif ∈ commentedOutVifs) :
    (∀ d ∈ definitions, ¬ inRange d vif) ∧
    ∀ (dif : Nat) (cont : List Nat) (last : Nat) (rest : List Nat),
      (1 ≤ dif &&& 0x07 ∧ dif &&& 0x07 ≤ 4) →
      (∀ b ∈ cont, b &&& 0x80 = 0x80) → last &&& 0x80 ≠ 0x80 →
      vifChain 0 (cont ++ [last]) = vif →
      mbusDecoder (dif :: (cont ++ last :: rest)) = some (.error (.unsupportedVif vif)) := by
  have hgap : ∀ v ∈ commentedOutVifs, ∀ d ∈ definitions, ¬ inRange d v := by decide
  refine ⟨hgap vif hvif, ?_⟩
  intro dif cont last rest hdif hcont hlast hv
  rw [mbusDecoder_cons, decodeRecord_chain dif cont last rest 0 hdif hcont hlast, hv]
  simp only [findDefinition_eq_none (hgap vif hvif)]

theorem c13_commented_out_vifs_witness :
    mbusDecoder [0x02, 0x6C, 0x21, 0x43] = some (.error (.unsupportedVif 0x6C)) ∧
      mbusDecoder [0x01, 0xFD, 0x16, 0x00] = some (.error (.unsupportedVif 0xFD16)) :=
  ⟨(c13_commented_out_vifs 0x6C (by decide)).2 0x02 [] 0x6C [0x21, 0x43] (by decide) (by decide)
      (by decide) (by decide),
   (c13_commented_out_vifs 0xFD16 (by decide)).2 0x01 [0xFD] 0x16 [0x00] (by decide) (by decide)
      (by decide) (by decide)⟩

/-! ## Errors and indices along the loop -/

/-- Decoding `b` behind `a`: an error of `b` is raised unchanged. -/
theorem mbusLoop_append_right_error (a : List Nat) {b : List Nat} {fuel index : Nat}
    {fields : List Field} {e : DecodeError}
    (h : mbusLoop b fuel index fields = some (.error e)) (pre : List Field) :
    mbusLoop (a ++ b) fuel (a.length + index) (pre ++ fields.map (Field.shift pre.length)) =
      some (.error e) := by
  induction fuel generalizing index fields with
  | zero => simp [mbusLoop] at h
  | succ n ih =>
    rw [mbusLoop_succ] at h
    rw [mbusLoop_succ]
    by_cases hlt : index < b.length
    · rw [if_pos hlt] at h
      rw [if_pos (by rw [List.length_append]; omega)]
      have hcount : (pre ++ fields.map (Field.shift pre.length)).length =
          fields.length + pre.length := by
        rw [List.length_append, List.length_map, Nat.add_comm]
      rw [hcount, decodeRecord_shift]
      cases he : decodeRecord b index fields.length with
      | error e1 =>
        rw [he] at h
        exact h
      | ok p =>
        obtain ⟨f, index1⟩ := p
        rw [he] at h
        simp only
        have := ih h
        rw [List.map_append, List.map_singleton, ← List.append_assoc] at this
        exact this
    · rw [if_neg hlt] at h
      cases h

/-- An error of the loop is the error of one record. -/
theorem mbusLoop_error {bytes : List Nat} {fuel index : Nat} {fields : List Field}
    {e : DecodeError} (h : mbusLoop bytes fuel index fields = some (.error e)) :
    ∃ p count, p < bytes.length ∧ decodeRecord bytes p count = .error e := by
  induction fuel generalizing index fields with
  | zero => simp [mbusLoop] at h
  | succ n ih =>
    rw [mbusLoop_succ] at h
    split at h
    · rename_i hlt
      split at h
      · rename_i e1 he
        injection h with h
        injection h with h
        subst h
        exact ⟨index, fields.length, hlt, he⟩
      · exact ih h
    · cases h

/-- The fields the loop adds are numbered on from the count it starts with,
and there are at most a third as many of them as bytes left. -/
theorem mbusLoop_indices {bytes : List Nat} {fuel index : Nat} {fields out : List Field}
    (hidx : index ≤ bytes.length)
    (h : mbusLoop bytes fuel index fields = some (.ok out)) :
    ∃ new, out = fields ++ new ∧
      (∀ (k : Nat) (f : Field), new[k]? = some f → f.index = fields.length + k + 1) ∧
      3 * new.length + index ≤ bytes.length := by
  induction fuel generalizing index fields with
  | zero => simp [mbusLoop] at h
  | succ n ih =>
    rw [mbusLoop_succ] at h
    split at h
    · split at h
      · cases h
      · rename_i f index1 he
        have hi := decodeRecord_index he
        obtain ⟨new, hout, hnum, hlen⟩ := ih hi.2 h
        refine ⟨f :: new, by rw [hout, List.append_assoc]; rfl, ?_, ?_⟩
        · intro k g hg
          cases k with
          | zero =>
            rw [List.getElem?_cons_zero] at hg
            injection hg with hg
            subst hg
            obtain ⟨vif, i, d, raw, _, _, _, _, _, hf, _⟩ := decodeRecord_ok he
            rw [hf]
          | succ k =>
            rw [List.getElem?_cons_succ] at hg
            have := hnum k g hg
            rw [List.length_append, List.length_singleton] at this
            omega
        · rw [List.length_cons]
          omega
    · injection h with h
      injection h with h
      exact ⟨[], by simp [h], by simp, by simpa using hidx⟩

/-! ## Claims on the loop -/

/-- C12: if `a` decodes to fields and `b` raises the error `e`, then `a ++ b`
raises `e`: the result is the error alone, no field of `a` is returned. -/
theorem c12_all_or_nothing (a b : List Nat) (fa : List Field) (e : DecodeError)
    (ha : mbusDecoder a = some (.ok fa)) (hb : mbusDecoder b = some (.error e)) :
    mbusDecoder (a ++ b) = some (.error e) := by
  unfold mbusDecoder at ha hb ⊢
  have hright := mbusLoop_append_right_error a hb fa
  simp only [List.map_nil, List.append_nil, Nat.add_zero] at hright
  have hleft := mbusLoop_append_left (Nat.zero_le _) ha b (b.length + 1) hright
  obtain ⟨r, hr⟩ := mbusLoop_terminates (a ++ b) (a ++ b).length 0 [] (by omega)
  have hr1 := mbusLoop_mono hr 1
  rw [List.length_append, show a.length + b.length + 1 + 1 = a.length + 1 + (b.length + 1) by omega,
    hleft] at hr1
  rw [hr, hr1]

theorem c12_all_or_nothing_witness :
    mbusDecoder ([0x04, 0x03, 0x2A, 0x00, 0x00, 0x00] ++ [0x01, 0x7B, 0x00]) =
        some (.error (.unsupportedVif 123)) ∧
      mbusDecoder ([0x04, 0x03, 0x2A, 0x00, 0x00, 0x00] ++ [0x02, 0x03, 0x01]) =
        some (.error .bufferOverflow) :=
  ⟨c12_all_or_nothing [0x04, 0x03, 0x2A, 0x00, 0x00, 0x00] [0x01, 0x7B, 0x00]
     [⟨1, 3, "energy", "Wh", 42⟩] (.unsupportedVif 123) (by decide!) (by decide),
   c12_all_or_nothing [0x04, 0x03, 0x2A, 0x00, 0x00, 0x00] [0x02, 0x03, 0x01]
     [⟨1, 3, "energy", "Wh", 42⟩] .bufferOverflow (by decide!) (by decide)⟩

/-- C15: the field at 0-based position `k` of a successful decode has
`index = k + 1`, and the empty input decodes to the empty sequence. -/
theorem c15_one_based_index :
    (∀ (bytes : List Nat) (fs : List Field), mbusDecoder bytes = some (.ok fs) →
      ∀ (k : Nat) (f : Field), fs[k]? = some f → f.index = k + 1) ∧
    mbusDecoder [] = some (.ok []) := by
  constructor
  · intro bytes fs h k f hf
    obtain ⟨new, hout, hnum, _⟩ := mbusLoop_indices (Nat.zero_le _) h
    rw [List.nil_append] at hout
    subst hout
    have := hnum k f hf
    simpa using this
  · rfl

theorem c15_one_based_index_witness :
    ∀ (k : Nat) (f : Field),
      [(⟨1, 3, "energy", "Wh", 42⟩ : Field), ⟨2, 3, "energy", "Wh", 5634⟩][k]? = some f →
      f.index = k + 1 :=
  c15_one_based_index.1 [0x04, 0x03, 0x2A, 0x00, 0x00, 0x00, 0x0A, 0x03, 0x34, 0x56]
    [⟨1, 3, "energy", "Wh", 42⟩, ⟨2, 3, "energy", "Wh", 5634⟩] (by decide!)

/-- C16: an iteration that completes a record moves the cursor forward by at
least 3 and not past `bytes.length`; the decoder reaches a result on every
input; a successful decode of `n` bytes returns at most `n / 3` fields. -/
theorem c16_progress_and_termination :
    (∀ (bytes : List Nat) (index count : Nat) (f : Field) (index1 : Nat),
      decodeRecord bytes index count = .ok (f, index1) →
      index + 3 ≤ index1 ∧ index1 ≤ bytes.length) ∧
    (∀ bytes : List Nat, ∃ r, mbusDecoder bytes = some r) ∧
    (∀ (bytes : List Nat) (fs : List Field), mbusDecoder bytes = some (.ok fs) →
      fs.length ≤ bytes.length / 3) := by
  refine ⟨?_, ?_, ?_⟩
  · intro bytes index count f index1 h
    exact decodeRecord_index h
  · intro bytes
    exact mbusLoop_terminates bytes bytes.length 0 [] (by omega)
  · intro bytes fs h
    obtain ⟨new, hout, _, hlen⟩ := mbusLoop_indices (Nat.zero_le _) h
    rw [List.nil_append] at hout
    subst hout
    omega

theorem c16_progress_and_termination_witness :
    (0 + 3 ≤ 6 ∧ 6 ≤ [0x04, 0x03, 0x2A, 0x00, 0x00, 0x00].length) ∧
      [(⟨1, 3, "energy", "Wh", 42⟩ : Field)].length ≤
        [0x04, 0x03, 0x2A, 0x00, 0x00, 0x00].length / 3 :=
  ⟨c16_progress_and_termination.1 [0x04, 0x03, 0x2A, 0x00, 0x00, 0x00] 0 0
     ⟨1, 3, "energy", "Wh", 42⟩ 6 (by decide!),
   c16_progress_and_termination.2.2 [0x04, 0x03, 0x2A, 0x00, 0x00, 0x00]
     [⟨1, 3, "energy", "Wh", 42⟩] (by decide!)⟩

/-! ## Proper bytes -/

theorem foldlM_binAcc_ok (l : List Nat) (v : Int) (h : ∀ b ∈ l, b ≤ 0xFF) :
    ∃ r, l.foldlM binAcc v = .ok r := by
  induction l generalizing v with
  | nil => exact ⟨v, rfl⟩
  | cons b rest ih =>
    rw [List.foldlM_cons]
    unfold binAcc
    rw [if_neg (by have := h b (List.mem_cons_self _ _); omega)]
    exact ih _ (fun c hc => h c (List.mem_cons_of_mem _ hc))

theorem foldlM_bcdAcc_ok (l : List Nat) (v : Int) (h : ∀ b ∈ l, b ≤ 0xFF) :
    ∃ r, l.foldlM bcdAcc v = .ok r := by
  induction l generalizing v with
  | nil => exact ⟨v, rfl⟩
  | cons b rest ih =>
    rw [List.foldlM_cons]
    unfold bcdAcc
    rw [if_neg (by have := h b (List.mem_cons_self _ _); omega)]
    exact ih _ (fun c hc => h c (List.mem_cons_of_mem _ hc))

theorem jsSlice_subset {bytes : List Nat} {start stop b : Nat}
    (h : b ∈ jsSlice bytes start stop) : b ∈ bytes :=
  List.mem_of_mem_drop (List.mem_of_mem_take h)

/-- On bytes in `0..255` the two helpers do not throw. -/
theorem value_ok_of_bytes {bytes : List Nat} (hbytes : ∀ b ∈ bytes, b ≤ 0xFF)
    (start stop : Nat) :
    (∃ r, bin2dec (jsSlice bytes start stop) = .ok r) ∧
      (∃ r, bcd2dec (jsSlice bytes start stop) = .ok r) := by
  have hs : ∀ b ∈ (jsSlice bytes start stop).reverse, b ≤ 0xFF := fun b hb =>
    hbytes b (jsSlice_subset (List.mem_reverse.mp hb))
  rw [bin2dec_eq_foldlM, bcd2dec_eq_foldlM]
  exact ⟨foldlM_binAcc_ok _ 0 hs, foldlM_bcdAcc_ok _ 0 hs⟩

/-- On bytes in `0..255` a record raises `UnsupportedCoding`, `BufferOverflow`
or `UnsupportedVif` only. -/
theorem decodeRecord_error_of_bytes {bytes : List Nat} (hbytes : ∀ b ∈ bytes, b ≤ 0xFF)
    {index count : Nat} {e : DecodeError} (h : decodeRecord bytes index count = .error e) :
    (∃ code, e = .unsupportedCoding code) ∨ e = .bufferOverflow ∨
      (∃ vif, e = .unsupportedVif vif) := by
  by_cases hlen : bytes.getD index 0 &&& 0x07 < 1 ∨ 4 < bytes.getD index 0 &&& 0x07
  · rw [decodeRecord_unfold, if_pos hlen] at h
    injection h with h
    exact Or.inl ⟨_, h.symm⟩
  · rw [decodeRecord_unfold, if_neg hlen] at h
    split at h
    · rename_i e1 he
      injection h with h
      subst h
      exact Or.inr (Or.inl (readVif_error he))
    · rename_i vif i hv
      split at h
      · injection h with h
        exact Or.inr (Or.inr ⟨_, h.symm⟩)
      · split at h
        · injection h with h
          exact Or.inr (Or.inl h.symm)
        · split at h
          · rename_i e1 he
            obtain ⟨⟨r1, h1⟩, ⟨r2, h2⟩⟩ :=
              value_ok_of_bytes hbytes i (i + (bytes.getD index 0 &&& 0x07))
            split at he
            · rw [h2] at he
              cases he
            · rw [h1] at he
              cases he
          · cases h

/-- C14: on an input whose elements are all in `0..255` the decoder does not
raise `ByteOverflow`; a failure is `UnsupportedCoding`, `BufferOverflow` or
`UnsupportedVif`. -/
theorem c14_byte_overflow_unreachable (bytes : List Nat) (hbytes : ∀ b ∈ bytes, b ≤ 255) :
    mbusDecoder bytes ≠ some (.error .byteOverflow) ∧
    ∀ e, mbusDecoder bytes = some (.error e) →
      (∃ code, e = .unsupportedCoding code) ∨ e = .bufferOverflow ∨
        (∃ vif, e = .unsupportedVif vif) := by
  have hkinds : ∀ e, mbusDecoder bytes = some (.error e) →
      (∃ code, e = .unsupportedCoding code) ∨ e = .bufferOverflow ∨
        (∃ vif, e = .unsupportedVif vif) := by
    intro e he
    obtain ⟨p, count, _, hrec⟩ := mbusLoop_error he
    exact decodeRecord_error_of_bytes hbytes hrec
  refine ⟨?_, hkinds⟩
  intro hc
  rcases hkinds _ hc with ⟨code, h⟩ | h | ⟨vif, h⟩ <;> cases h

theorem c14_byte_overflow_unreachable_witness :
    mbusDecoder [0x01, 0x03, 0xFF] ≠ some (.error .byteOverflow) ∧
      mbusDecoder [0x01, 0x03, 0x100] = some (.error .byteOverflow) ∧
      DecodeError.byteOverflow.message = "Byte value overflow!" :=
  ⟨(c14_byte_overflow_unreachable [0x01, 0x03, 0xFF] (by decide)).1, by decide, by decide⟩

/-! ## Wrap of the binary accumulator, weights of the BCD digits -/

/-- One step `(value << 8) | byte` on a byte in `0..255`, whatever `value` is. -/
theorem jsOr_jsShl_byte (v : Int) (b : Nat) (hb : b ≤ 0xFF) :
    jsOr (jsShl v 8) (b : Int) = toInt32 (toUint32 v * 256 + b) := by
  unfold jsOr jsShl
  rw [toUint32_toInt32, toUint32_natCast]
  have h2 : b % 4294967296 = b := Nat.mod_eq_of_lt (by omega)
  have h3 : (toUint32 v * 2 ^ (8 % 32)) % 4294967296 = 2 ^ 8 * (toUint32 v % 16777216) := by
    norm_num
    omega
  rw [h2, h3, ← Nat.mul_add_lt_is_or (by norm_num; omega) _]
  unfold toInt32
  have h4 : (2 ^ 8 * (toUint32 v % 16777216) + b) % 4294967296 =
      (toUint32 v * 256 + b) % 4294967296 := by
    norm_num
    omega
  rw [h4]

theorem binAcc_ok_wrap (v b : Nat) (hv : v < 16777216) (hb : b ≤ 0xFF) :
    binAcc (v : Int) b = .ok (toInt32 (v * 256 + b)) := by
  unfold binAcc
  rw [if_neg (by omega), jsOr_jsShl_byte _ b hb, toUint32_natCast,
    Nat.mod_eq_of_lt (show v < 4294967296 by omega)]

theorem bin2dec_four_wrap (b0 b1 b2 b3 : Nat) (h0 : b0 ≤ 0xFF) (h1 : b1 ≤ 0xFF)
    (h2 : b2 ≤ 0xFF) (h3 : b3 ≤ 0xFF) (h3s : 0x80 ≤ b3) :
    bin2dec [b0, b1, b2, b3] =
      .ok (((b0 + 256 * b1 + 65536 * b2 + 16777216 * b3 : Nat) : Int) - 4294967296) := by
  rw [bin2dec_eq_foldlM]
  simp only [List.reverse_cons, List.reverse_nil, List.nil_append, List.singleton_append,
    List.cons_append, List.foldlM_cons, List.foldlM_nil]
  have e3 := binAcc_ok_small 0 b3 (by norm_num) (by omega)
  simp only [Nat.cast_zero, Nat.zero_mul, Nat.zero_add] at e3
  rw [e3]
  simp only [bind, Except.bind]
  rw [binAcc_ok_small b3 b2 (by omega) h2]
  simp only
  rw [binAcc_ok_small (b3 * 256 + b2) b1 (by omega) h1]
  simp only
  rw [binAcc_ok_wrap ((b3 * 256 + b2) * 256 + b1) b0 (by omega) h0]
  simp only [pure, Except.pure]
  congr 1
  unfold toInt32
  have hm : (((b3 * 256 + b2) * 256 + b1) * 256 + b0) % 4294967296 =
      ((b3 * 256 + b2) * 256 + b1) * 256 + b0 := Nat.mod_eq_of_lt (by omega)
  rw [hm, if_neg (by omega)]
  omega

theorem bcdWeighted_cons (b : Nat) (rest : List Nat) :
    bcdWeighted (b :: rest) = bcdPair b + 100 * bcdWeighted rest := by
  unfold bcdWeighted
  rw [List.length_cons, List.range_succ_eq_map, List.map_cons, List.sum_cons, List.map_map,
    ← List.sum_map_mul_left]
  simp only [List.getD_cons_zero, pow_zero, Nat.mul_one]
  congr 2
  apply List.map_congr_left
  intro i _
  simp only [Function.comp, List.getD_cons_succ, Nat.succ_eq_add_one, pow_succ]
  ring

/-- The loop of `bcd2dec` over a whole slice of bytes in `0..255`. -/
theorem foldlM_bcdAcc_reverse (l : List Nat) (v : Int) (h : ∀ b ∈ l, b ≤ 0xFF) :
    l.reverse.foldlM bcdAcc v = .ok (v * 100 ^ l.length + (bcdWeighted l : Nat)) := by
  induction l generalizing v with
  | nil =>
    simp [bcdWeighted]
    rfl
  | cons b rest ih =>
    rw [List.reverse_cons, List.foldlM_append,
      ih v (fun c hc => h c (List.mem_cons_of_mem _ hc))]
    simp only [bind, Except.bind, List.foldlM_cons, List.foldlM_nil]
    rw [bcdAcc_ok _ b (h b (List.mem_cons_self _ _)), bcdWeighted_cons]
    simp only [pure, Except.pure, List.length_cons]
    congr 1
    push_cast
    ring

/-! ## Claims on the two helpers -/

/-- C17: on a 4-byte slice of bytes in `0..255` with `b3 >= 0x80`, `bin2dec`
returns the negative number `b0 + 256*b1 + 65536*b2 + 16777216*b3 - 2^32`; on
slices of 1, 2 or 3 bytes it returns the unsigned value, which is in
`0 .. 256^len - 1`. -/
theorem c17_signed_four_bytes (b0 b1 b2 b3 : Nat) (h0 : b0 ≤ 255) (h1 : b1 ≤ 255)
    (h2 : b2 ≤ 255) (h3 : b3 ≤ 255) :
    (0x80 ≤ b3 →
      bin2dec [b0, b1, b2, b3] =
          .ok (((b0 + 256 * b1 + 65536 * b2 + 16777216 * b3 : Nat) : Int) - 4294967296) ∧
        ((b0 + 256 * b1 + 65536 * b2 + 16777216 * b3 : Nat) : Int) - 4294967296 < 0) ∧
    (bin2dec [b0] = .ok ((b0 : Nat) : Int) ∧ b0 < 256 ^ 1) ∧
    (bin2dec [b0, b1] = .ok ((b0 + 256 * b1 : Nat) : Int) ∧ b0 + 256 * b1 < 256 ^ 2) ∧
    (bin2dec [b0, b1, b2] = .ok ((b0 + 256 * b1 + 65536 * b2 : Nat) : Int) ∧
      b0 + 256 * b1 + 65536 * b2 < 256 ^ 3) := by
  refine ⟨fun hs => ⟨bin2dec_four_wrap b0 b1 b2 b3 h0 h1 h2 h3 hs, by omega⟩,
    ⟨bin2dec_one b0 h0, by omega⟩, ⟨bin2dec_two b0 b1 h0 h1, by norm_num; omega⟩,
    ⟨bin2dec_three b0 b1 b2 h0 h1 h2, by norm_num; omega⟩⟩

theorem c17_signed_four_bytes_witness :
    bin2dec [0xFF, 0xFF, 0xFF, 0xFF] = .ok (-1) ∧ bin2dec [0x00, 0x00, 0x00, 0x80] = .ok (-2147483648) ∧
      bin2dec [0xFF, 0xFF, 0xFF] = .ok 16777215 :=
  ⟨((c17_signed_four_bytes 0xFF 0xFF 0xFF 0xFF (by decide) (by decide) (by decide)
      (by decide)).1 (by decide)).1.trans (by decide),
   ((c17_signed_four_bytes 0x00 0x00 0x00 0x80 (by decide) (by decide) (by decide)
      (by decide)).1 (by decide)).1.trans (by decide),
   by decide⟩

/-- C18: on a slice `s` of 1 to 4 bytes in `0..255`, `bcd2dec` returns the sum
over `i` of `((s[i] >> 4) * 10 + (s[i] & 0x0F)) * 100^i`: the first byte is
the least-significant digit pair; a nibble above 9 is taken at its raw value. -/
theorem c18_bcd_weights (s : List Nat) (_hlen : 1 ≤ s.length ∧ s.length ≤ 4)
    (hbytes : ∀ b ∈ s, b ≤ 255) :
    bcd2dec s =
      .ok ((((List.range s.length).map
        (fun i => ((s.getD i 0 >>> 4) * 10 + (s.getD i 0 &&& 0x0F)) * 100 ^ i)).sum : Nat) : Int) := by
  rw [bcd2dec_eq_foldlM, foldlM_bcdAcc_reverse s 0 hbytes, Int.zero_mul, Int.zero_add]
  rfl

theorem c18_bcd_weights_witness :
    bcd2dec [0x34, 0x56] = .ok 5634 ∧ bcd2dec [0x78, 0x56, 0x34, 0x12] = .ok 12345678 ∧
      bcd2dec [0xFF] = .ok 165 :=
  ⟨(c18_bcd_weights [0x34, 0x56] (by decide) (by decide)).trans (by decide),
   (c18_bcd_weights [0x78, 0x56, 0x34, 0x12] (by decide) (by decide)).trans (by decide),
   by decide⟩

/-! ## Long chains -/

/-- A chain that ends, read back from the result of the loop. -/
theorem readVif_ok_chain {l : List Nat} {vif : Int} {index : Nat} {v : Int} {j : Nat}
    (h : readVif l vif index = .ok (v, j)) :
    ∃ (cont : List Nat) (last : Nat) (rest : List Nat), l = cont ++ last :: rest ∧
      (∀ b ∈ cont, b &&& 0x80 = 0x80) ∧ last &&& 0x80 ≠ 0x80 ∧
      v = vifChain vif (cont ++ [last]) ∧ j = index + cont.length + 1 := by
  induction l generalizing vif index with
  | nil => simp [readVif] at h
  | cons b tl ih =>
    rw [readVif_cons] at h
    by_cases hb : b &&& 0x80 = 0x80
    · rw [if_pos hb] at h
      obtain ⟨cont, last, rest, hl, hc, hlast, hv, hj⟩ := ih h
      refine ⟨b :: cont, last, rest, by rw [hl]; rfl, ?_, hlast, ?_, ?_⟩
      · intro c hc1
        rcases List.mem_cons.mp hc1 with hc1 | hc1
        · rw [hc1]
          exact hb
        · exact hc c hc1
      · rw [hv]
        rfl
      · rw [hj, List.length_cons]
        omega
    · rw [if_neg hb] at h
      injection h with h
      injection h with h1 h2
      exact ⟨[], b, tl, rfl, by simp, hb, by rw [← h1]; rfl, by rw [← h2]; rfl⟩

theorem two_last (l : List Nat) (h : 2 ≤ l.length) :
    ∃ (pre : List Nat) (x y : Nat), l = pre ++ [x, y] := by
  rcases List.eq_nil_or_concat l with h1 | ⟨l1, y, h1⟩
  · rw [h1] at h
    simp at h
  · rw [List.concat_eq_append] at h1
    rcases List.eq_nil_or_concat l1 with h2 | ⟨l2, x, h2⟩
    · rw [h1, h2] at h
      simp at h
    · rw [List.concat_eq_append] at h2
      exact ⟨l2, x, y, by rw [h1, h2, List.append_assoc]; rfl⟩

/-- Three steps of the accumulator, the first two on continuation bytes: the
result is negative or at least `0x808000`. -/
theorem vifChain_three (acc : Int) (c1 c2 last : Nat) (h1 : 0x80 ≤ c1 ∧ c1 ≤ 0xFF)
    (h2 : 0x80 ≤ c2 ∧ c2 ≤ 0xFF) (h3 : last ≤ 0xFF) :
    vifChain acc [c1, c2, last] < 0 ∨ 0x808000 ≤ vifChain acc [c1, c2, last] := by
  unfold vifChain
  simp only [List.foldl_cons, List.foldl_nil]
  rw [jsOr_jsShl_byte acc c1 h1.2, jsOr_jsShl_byte _ c2 h2.2, jsOr_jsShl_byte _ last h3,
    toUint32_toInt32, toUint32_toInt32]
  generalize toUint32 acc = u
  unfold toInt32
  split <;> omega

/-- A chain of three or more bytes in `0..255` combines to a value that is
negative or at least `0x808000`. -/
theorem vifChain_long (cont : List Nat) (last : Nat) (hlen : 2 ≤ cont.length)
    (hcont : ∀ b ∈ cont, b &&& 0x80 = 0x80 ∧ b ≤ 0xFF) (hlast : last ≤ 0xFF) :
    vifChain 0 (cont ++ [last]) < 0 ∨ 0x808000 ≤ vifChain 0 (cont ++ [last]) := by
  obtain ⟨pre, c1, c2, hpre⟩ := two_last cont hlen
  have hge : ∀ b, b &&& 0x80 = 0x80 → 0x80 ≤ b := fun b hb => by
    have : b &&& 0x80 ≤ b := Nat.and_le_left
    omega
  have hc1 := hcont c1 (by rw [hpre]; simp)
  have hc2 := hcont c2 (by rw [hpre]; simp)
  have e : vifChain 0 (cont ++ [last]) = vifChain (vifChain 0 pre) [c1, c2, last] := by
    unfold vifChain
    rw [hpre, List.append_assoc, List.foldl_append]
    rfl
  rw [e]
  exact vifChain_three _ c1 c2 last ⟨hge c1 hc1.1, hc1.2⟩ ⟨hge c2 hc2.1, hc2.2⟩ hlast

/-- The three blocks of codes the table covers. -/
theorem inRange_blocks {d : Definition} (hd : d ∈ definitions) {vif : Int}
    (h : inRange d vif) :
    (0 ≤ vif ∧ vif ≤ 0x7A) ∨ (0xFB00 ≤ vif ∧ vif ≤ 0xFB7F) ∨ (0xFD00 ≤ vif ∧ vif ≤ 0xFD70) := by
  have hall : ∀ d ∈ definitions, (0 ≤ d.base ∧ d.base + d.size ≤ 0x7B) ∨
      (0xFB00 ≤ d.base ∧ d.base + d.size ≤ 0xFB80) ∨
      (0xFD00 ≤ d.base ∧ d.base + d.size ≤ 0xFD71) := by decide
  have := hall d hd
  unfold inRange at h
  omega

theorem findDefinition_blocks {vif : Int} {d : Definition} (h : findDefinition vif = some d) :
    (0 ≤ vif ∧ vif ≤ 0x7A) ∨ (0xFB00 ≤ vif ∧ vif ≤ 0xFB7F) ∨ (0xFD00 ≤ vif ∧ vif ≤ 0xFD70) := by
  obtain ⟨k, hk, hin, _⟩ := findDefinition_first h
  exact inRange_blocks (List.getElem?_mem hk) hin

/-! ## Claim on long chains -/

/-- C19: with a valid DIF and a VIF chain of three or more bytes in `0..255`
that ends, the decoder raises `UnsupportedVif`: the combined value is negative
or at least `0x808000`. Hence, on bytes in `0..255`, every field of a
successful decode has its `vif` in `0x00..0x7A`, `0xFB00..0xFB7F` or
`0xFD00..0xFD70`, and it was read from a 1-byte chain or from a 2-byte chain
that starts with `0xFB` or `0xFD`. -/
theorem c19_long_chains :
    (∀ (dif : Nat) (cont : List Nat) (last : Nat) (rest : List Nat),
      (1 ≤ dif &&& 0x07 ∧ dif &&& 0x07 ≤ 4) →
      (∀ b ∈ cont, b &&& 0x80 = 0x80 ∧ b ≤ 255) → (last &&& 0x80 ≠ 0x80 ∧ last ≤ 255) →
      2 ≤ cont.length →
      mbusDecoder (dif :: (cont ++ last :: rest)) =
          some (.error (.unsupportedVif (vifChain 0 (cont ++ [last])))) ∧
        (vifChain 0 (cont ++ [last]) < 0 ∨ 0x808000 ≤ vifChain 0 (cont ++ [last]))) ∧
    (∀ (bytes : List Nat) (fs : List Field), (∀ b ∈ bytes, b ≤ 255) →
      mbusDecoder bytes = some (.ok fs) → ∀ f ∈ fs,
        ((0 ≤ f.vif ∧ f.vif ≤ 0x7A) ∨ (0xFB00 ≤ f.vif ∧ f.vif ≤ 0xFB7F) ∨
          (0xFD00 ≤ f.vif ∧ f.vif ≤ 0xFD70)) ∧
        ∃ p, p < bytes.length ∧
          ((bytes.getD (p + 1) 0 < 0x80 ∧ f.vif = (bytes.getD (p + 1) 0 : Nat)) ∨
           ((bytes.getD (p + 1) 0 = 0xFB ∨ bytes.getD (p + 1) 0 = 0xFD) ∧
             bytes.getD (p + 2) 0 < 0x80 ∧
             f.vif = ((256 * bytes.getD (p + 1) 0 + bytes.getD (p + 2) 0 : Nat) : Int)))) := by
  have hge : ∀ b, b &&& 0x80 = 0x80 → 0x80 ≤ b := fun b hb => by
    have : b &&& 0x80 ≤ b := Nat.and_le_left
    omega
  have hlow : ∀ b, b ≤ 255 → b &&& 0x80 ≠ 0x80 → b < 0x80 := by
    intro b hb
    interval_cases b <;> decide
  constructor
  · intro dif cont last rest hdif hcont hlast hlen
    have hv := vifChain_long cont last hlen hcont hlast.2
    refine ⟨?_, hv⟩
    rw [mbusDecoder_cons,
      decodeRecord_chain dif cont last rest 0 hdif (fun b hb => (hcont b hb).1) hlast.1]
    cases hd : findDefinition (vifChain 0 (cont ++ [last])) with
    | none => rfl
    | some d =>
      have := findDefinition_blocks hd
      omega
  · intro bytes fs hbytes h f hf
    obtain ⟨p, count, i1, hp, hrec⟩ := mbusDecoder_fields h hf
    obtain ⟨vif, i, d, raw, _, hread, hd, _, _, hfd, _⟩ := decodeRecord_ok hrec
    have hvif : f.vif = vif := by rw [hfd]
    have hblocks := findDefinition_blocks hd
    refine ⟨by rw [hvif]; exact hblocks, p, hp, ?_⟩
    obtain ⟨cont, last, rest, hl, hc, hlast, hv, _⟩ := readVif_ok_chain hread
    have hmem : ∀ b ∈ cont ++ last :: rest, b ≤ 255 := fun b hb =>
      hbytes b (List.mem_of_mem_drop (hl ▸ hb))
    have hget : ∀ k, bytes.getD (p + 1 + k) 0 = (cont ++ last :: rest).getD k 0 := by
      intro k
      rw [List.getD_eq_getElem?_getD, List.getD_eq_getElem?_getD, ← hl, List.getElem?_drop]
    have hlast255 : last ≤ 255 := hmem last (by simp)
    match cont, hl, hc, hv, hmem, hget with
    | [], _, _, hv, _, hget =>
      left
      have h0 := hget 0
      simp only [Nat.add_zero, List.nil_append, List.getD_cons_zero] at h0
      have e := jsOr_jsShl_small 0 last (by norm_num) hlast255
      simp only [Nat.cast_zero, Nat.zero_mul, Nat.zero_add] at e
      rw [h0, hvif, hv]
      exact ⟨hlow last hlast255 hlast, e⟩
    | [c1], _, hc, hv, hmem, hget =>
      right
      have h0 := hget 0
      have h1 := hget 1
      simp only [Nat.add_zero, List.singleton_append, List.getD_cons_zero,
        List.getD_cons_succ] at h0 h1
      have hc1 : c1 ≤ 255 := hmem c1 (by simp)
      have hc1s : 0x80 ≤ c1 := hge c1 (hc c1 (by simp))
      have e0 := jsOr_jsShl_small 0 c1 (by norm_num) hc1
      simp only [Nat.cast_zero, Nat.zero_mul, Nat.zero_add] at e0
      have e1 := jsOr_jsShl_small c1 last (by omega) hlast255
      have hval : vif = ((256 * c1 + last : Nat) : Int) := by
        rw [hv]
        unfold vifChain
        simp only [List.singleton_append, List.foldl_cons, List.foldl_nil]
        rw [e0, e1]
        congr 1
        omega
      have hl80 := hlow last hlast255 hlast
      rw [show p + 2 = p + 1 + 1 by omega, h0, h1, hvif]
      refine ⟨?_, hl80, hval⟩
      rw [hval] at hblocks
      omega
    | c1 :: c2 :: tl, _, hc, hv, hmem, _ =>
      exfalso
      have hlong := vifChain_long (c1 :: c2 :: tl) last (by simp)
        (fun b hb => ⟨hc b hb, hmem b (List.mem_append_left _ hb)⟩) hlast255
      rw [← hv] at hlong
      omega

theorem c19_long_chains_witness :
    mbusDecoder [0x01, 0xFD, 0x80, 0x40, 0x05] = some (.error (.unsupportedVif 0xFD8040)) ∧
      mbusDecoder [0x01, 0x81, 0xFD, 0x80, 0x40, 0x05] =
        some (.error (.unsupportedVif (-2114092992))) ∧
      ((0 ≤ (0xFD40 : Int) ∧ (0xFD40 : Int) ≤ 0x7A) ∨
        (0xFB00 ≤ (0xFD40 : Int) ∧ (0xFD40 : Int) ≤ 0xFB7F) ∨
        (0xFD00 ≤ (0xFD40 : Int) ∧ (0xFD40 : Int) ≤ 0xFD70)) :=
  ⟨((c19_long_chains.1 0x01 [0xFD, 0x80] 0x40 [0x05] (by decide) (by decide) (by decide)
      (by decide)).1).trans (by decide),
   ((c19_long_chains.1 0x01 [0x81, 0xFD, 0x80] 0x40 [0x05] (by decide) (by decide) (by decide)
      (by decide)).1).trans (by decide),
   (c19_long_chains.2 [0x01, 0xFD, 0x40, 0x05] [⟨1, 0xFD40, "volts", "V", 5 / 1000000000⟩]
      (by decide) (by decide!) ⟨1, 0xFD40, "volts", "V", 5 / 1000000000⟩
      (List.mem_singleton_self _)).1⟩

/-! ## What a record reads of the input -/

/-- A record depends on the input through its length, the low nibble of the
DIF and the bytes after the DIF. -/
theorem decodeRecord_congr {a b : List Nat} {index : Nat} (count : Nat)
    (hlen : a.length = b.length)
    (hdif : a.getD index 0 &&& 0x0F = b.getD index 0 &&& 0x0F)
    (hdrop : a.drop (index + 1) = b.drop (index + 1)) :
    decodeRecord a index count = decodeRecord b index count := by
  have h7 : a.getD index 0 &&& 0x07 = b.getD index 0 &&& 0x07 := by
    have e : ∀ x : Nat, x &&& 0x07 = (x &&& 0x0F) &&& 0x07 := fun x => by
      rw [Nat.and_assoc]
      rfl
    rw [e (a.getD index 0), e (b.getD index 0), hdif]
  have h8 : a.getD index 0 &&& 0x08 = b.getD index 0 &&& 0x08 := by
    have e : ∀ x : Nat, x &&& 0x08 = (x &&& 0x0F) &&& 0x08 := fun x => by
      rw [Nat.and_assoc]
      rfl
    rw [e (a.getD index 0), e (b.getD index 0), hdif]
  have hslice : ∀ i n, index + 1 ≤ i → jsSlice a i (i + n) = jsSlice b i (i + n) := by
    intro i n hi
    unfold jsSlice
    have e : ∀ l : List Nat, l.drop i = (l.drop (index + 1)).drop (i - (index + 1)) := fun l => by
      rw [List.drop_drop]
      congr 1
      omega
    rw [e a, e b, hdrop]
  rw [decodeRecord_unfold, decodeRecord_unfold, hdif, h7, h8, hdrop, hlen]
  split
  · rfl
  · cases hv : readVif (b.drop (index + 1)) 0 (index + 1) with
    | error e => rfl
    | ok r =>
      obtain ⟨vif, i⟩ := r
      have hi := (readVif_index hv).1
      simp only at hi
      simp only [hslice i _ (Nat.le_of_lt hi)]

/-- The loop from `index` on depends on the input through its length and the
bytes from `index` on. -/
theorem mbusLoop_congr {a b : List Nat} (hlen : a.length = b.length) (fuel : Nat)
    {index : Nat} (hdrop : a.drop index = b.drop index) (fields : List Field) :
    mbusLoop a fuel index fields = mbusLoop b fuel index fields := by
  induction fuel generalizing index fields with
  | zero => rfl
  | succ n ih =>
    have hfrom : ∀ k, a.drop (index + k) = b.drop (index + k) := fun k => by
      rw [← List.drop_drop, ← List.drop_drop, hdrop]
    have hget : a.getD index 0 = b.getD index 0 := by
      have e : ∀ l : List Nat, l.getD index 0 = (l.drop index).getD 0 0 := fun l => by
        rw [List.getD_eq_getElem?_getD, List.getD_eq_getElem?_getD, List.getElem?_drop]
        rfl
      rw [e a, e b, hdrop]
    rw [mbusLoop_succ, mbusLoop_succ, hlen,
      decodeRecord_congr fields.length hlen (by rw [hget]) (hfrom 1)]
    split
    · cases he : decodeRecord b index fields.length with
      | error e => rfl
      | ok r =>
        obtain ⟨f, index1⟩ := r
        simp only
        have hi := (decodeRecord_index he).1
        have := hfrom (index1 - index)
        rw [show index + (index1 - index) = index1 by omega] at this
        exact ih this _
    · rfl

/-! ## Claim on the high nibble of the DIF -/

/-- C20: two inputs that differ only in the first byte, with the same low
nibble there, give the same outcome: the same fields or the same error. -/
theorem c20_dif_high_nibble (d1 d2 : Nat) (rest : List Nat)
    (h : d1 &&& 0x0F = d2 &&& 0x0F) :
    mbusDecoder (d1 :: rest) = mbusDecoder (d2 :: rest) := by
  unfold mbusDecoder
  rw [mbusLoop_succ, mbusLoop_succ, if_pos (by simp), if_pos (by simp)]
  have hrec : decodeRecord (d1 :: rest) 0 ([] : List Field).length =
      decodeRecord (d2 :: rest) 0 ([] : List Field).length :=
    decodeRecord_congr _ (by simp) (by simpa using h) (by simp)
  rw [hrec]
  cases he : decodeRecord (d2 :: rest) 0 ([] : List Field).length with
  | error e => rfl
  | ok r =>
    obtain ⟨f, index1⟩ := r
    simp only [List.length_cons]
    have hi := (decodeRecord_index he).1
    apply mbusLoop_congr (by simp)
    obtain ⟨k, hk⟩ : ∃ k, index1 = k + 1 := ⟨index1 - 1, by omega⟩
    rw [hk, List.drop_succ_cons, List.drop_succ_cons]

theorem c20_dif_high_nibble_witness :
    mbusDecoder [0xF4, 0x03, 0x2A, 0x00, 0x00, 0x00] =
        some (.ok [⟨1, 3, "energy", "Wh", 42⟩]) ∧
      mbusDecoder [0x30, 0x03] = some (.error (.unsupportedCoding 0)) :=
  ⟨(c20_dif_high_nibble 0xF4 0x04 [0x03, 0x2A, 0x00, 0x00, 0x00] (by decide)).trans
     (by decide!),
   (c20_dif_high_nibble 0x30 0x00 [0x03] (by decide)).trans (by decide)⟩

end MBus
